import Mathlib

/-!
# Verification of the scipion-pyworkflow core (step scheduler + object mappers)

Shallow embedding, in Lean 4, of the engineering core of the repository:

* `pyworkflow/protocol/protocol.py` — `Step.run`, `Protocol.__insertStep`,
  `Protocol.__findStartingStep`, `Protocol._runSteps`;
* `pyworkflow/mapper/sqlite.py` — `SqliteMapper` (graph mapper: insert /
  updateTo / selectById) and `SqliteFlatMapper` (flat mapper read path).

Python objects are modelled as explicit records, mutation as state passing,
exceptions as `Except String`.  Timestamps (`datetime.now()`) are passed in as
explicit arguments.  Helper modules of the repository that are not part of the
provided sources (`pyworkflow/object.py`, `pyworkflow/mapper/mapper.py`,
`pyworkflow/protocol/constants.py`, `pyworkflow/utils/path.py`,
`pyworkflow/protocol/executor.py`) are modelled from the specification's
description of them; each such definition carries a doc comment saying so.
-/

namespace PW

/-- Modelled from the spec: the step lifecycle states of
`pyworkflow/protocol/constants.py` (absent from the sources): the spec's state
machine `SAVED → RUNNING → {FINISHED | FAILED | ABORTED | INTERACTIVE}`, plus
the implicit `new` default returned by `Step.getStatus` when no status has been
set. -/
inductive StStatus where
  | new
  | saved
  | running
  | finished
  | failed
  | aborted
  | interactive
deriving DecidableEq, Repr

/-- Modelled from the spec: the run modes of
`pyworkflow/protocol/constants.py` (absent from the sources): `runMode`
(resume vs. restart). -/
inductive RunMode where
  | resume
  | restart
deriving DecidableEq, Repr

/-- State of a `FunctionStep` (from `Step.__init__` plus `FunctionStep.__init__`
in `protocol.py`): status, init/end times, error message, interactive flag,
prerequisites, 1-based index, the bound function name, the serialized
(pickled) argument tuple, and the pickled list of expected result files.
The pickled blobs `argsStr` / `_resultFiles` are modelled as the serialized
payloads themselves (`Option String` for the argument blob, `Option
(List String)` for the result-file list); `None`-valued `String` objects are
`none`. -/
structure FStep where
  funcName : Option String
  argsStr : Option String
  status : Option StStatus
  initTime : Option Nat
  endTime : Option Nat
  errorMsg : Option String
  isInteractive : Bool
  resultFiles : Option (List String)
  prerequisites : List Nat
  index : Option Nat
deriving DecidableEq, Repr

/-- `Step.getStatus`: `self.status.get('new')`. -/
def FStep.getStatus (s : FStep) : StStatus :=
  s.status.getD .new

/-- `Step.isFinished`: `self.getStatus() == STATUS_FINISHED`. -/
def FStep.isFinished (s : FStep) : Bool :=
  s.getStatus == .finished

/-- `FunctionStep.__eq__`: same bound function name and same serialized
argument string. -/
def stepEqB (a b : FStep) : Bool :=
  a.funcName == b.funcName && a.argsStr == b.argsStr

/-- `FunctionStep._postconditions`: if `_resultFiles` has no value, `True`;
otherwise all the unpickled file paths must exist.  The file system is
modelled as the list `fs` of existing paths (`missingPaths` keeps the paths
not in `fs`). -/
def postconditionsB (fs : List String) (s : FStep) : Bool :=
  match s.resultFiles with
  | none => true
  | some files => files.all (fun f => fs.contains f)

/-- Modelled from the spec: `Object.copy` (in `pyworkflow/object.py`, absent
from the sources) copies the old step's persisted state onto the new step
object ("copy the old step's persisted state onto the new step object").
All persisted (Object-valued) fields are taken from `old`; the plain Python
attribute `_index` (not an Object attribute, hence not persisted nor copied)
keeps the new step's value. -/
def copyStep (new old : FStep) : FStep :=
  { old with index := new.index }

/-- The three conditions the resume walk checks at one position: the old
step is `FINISHED`, the new step equals the old one (`FunctionStep.__eq__`),
and the old step's postcondition check passes. -/
abbrev stepOk (fs : List String) (new old : FStep) : Prop :=
  old.isFinished = true ∧ stepEqB new old = true ∧
    postconditionsB fs old = true

/-- The lock-step walk of `Protocol.__findStartingStep` (the `for i in
range(n)` loop): walks the fresh list `steps` and the persisted list
`prevSteps` from position `i`, stopping at the first position where the old
step is not `FINISHED`, or differs from the new step, or fails its
postcondition check; positions before the stop point get the old step's state
copied onto the new step.  Returns the resume index together with the updated
fresh list. -/
def findStartingStepAux (fs : List String) :
    List FStep → List FStep → Nat → Nat × List FStep
  | [], _, i => (i, [])
  | news, [], i => (i, news)
  | newStep :: news, oldStep :: olds, i =>
    if !oldStep.isFinished || !stepEqB newStep oldStep
        || !postconditionsB fs oldStep then
      (i, newStep :: news)
    else
      let r := findStartingStepAux fs news olds (i + 1)
      (r.1, copyStep newStep oldStep :: r.2)

/-- `Protocol.__findStartingStep`: in `MODE_RESTART` the persisted step list
is discarded (`self._prevSteps = []`) and the resume index is `0`; otherwise
the persisted list is loaded (`stored` stands for the content of the steps
file read by `loadSteps`) and both lists are walked in lock-step.  Returns
`(resume index, updated fresh steps, self._prevSteps)`. -/
def findStartingStep (runMode : RunMode) (steps stored : List FStep)
    (fs : List String) : Nat × List FStep × List FStep :=
  if runMode == .restart then
    (0, steps, [])
  else
    let prevSteps := stored
    let r := findStartingStepAux fs steps prevSteps 0
    (r.1, r.2, prevSteps)

/-- `Protocol.__insertStep`: append `step` to `steps`.  When no
`prerequisites` argument is supplied and the list is non-empty, the index of
the previous step (`len(self._steps)` before the append) is appended to the
step's prerequisites; an explicit `prerequisites` list is appended
element-wise.  The step's `_index` is set to its 1-based position after the
append, which is also the returned value. -/
def insertStep (steps : List FStep) (step : FStep)
    (prerequisites : Option (List Nat)) : List FStep × Nat :=
  let step :=
    match prerequisites with
    | none =>
      if steps.length ≠ 0 then
        { step with prerequisites := step.prerequisites ++ [steps.length] }
      else
        step
    | some l => { step with prerequisites := step.prerequisites ++ l }
  let step := { step with index := some (steps.length + 1) }
  (steps ++ [step], steps.length + 1)

/-- Folding `insertStep` (with no `prerequisites` argument) over a list of
fresh steps, as `_insertFunctionStep` does; returns the final `_steps` list
and the list of returned indices. -/
def insertAll (steps : List FStep) (l : List FStep) : List FStep × List Nat :=
  match l with
  | [] => (steps, [])
  | s :: rest =>
    let r := insertStep steps s none
    let r' := insertAll r.1 rest
    (r'.1, r.2 :: r'.2)

/-- `Step.setRunning`: stamp `initTime`, clear `endTime`, set status
`RUNNING`, clear the previous error message. -/
def setRunning (s : FStep) (t : Nat) : FStep :=
  { s with initTime := some t, endTime := none,
           status := some .running, errorMsg := none }

/-- `Step.setFailed`: store the error message and set status `FAILED`. -/
def setFailed (s : FStep) (msg : String) : FStep :=
  { s with errorMsg := some msg, status := some .failed }

/-- `Step.run`: `setRunning()`, then the body `_run()` — modelled as a state
transformer that may also raise (`StepBody` returns the mutated state and an
optional exception text, matching Python where mutations survive a raise).
On normal return, if the status is still `RUNNING` it becomes `INTERACTIVE`
(interactive step) or `FINISHED`; on a raise, `setFailed(str(e))`.  The
`finally` clause stamps `endTime` in every outcome.  `t1`/`t2` are the two
`datetime.now()` timestamps. -/
def stepRun (s : FStep) (body : FStep → FStep × Option String)
    (t1 t2 : Nat) : FStep :=
  let s1 := setRunning s t1
  let br := body s1
  let s3 :=
    match br.2 with
    | some e => setFailed br.1 e
    | none =>
      if br.1.status == some StStatus.running then
        let st : StStatus := if br.1.isInteractive then .interactive else .finished
        { br.1 with status := some st }
      else
        br.1
  { s3 with endTime := some t2 }

/-- The Protocol-level state touched by `Protocol._runSteps`: the in-memory
`runMode`, the plain attribute `_originalRunMode`, status, step counters, the
step list, and the snapshot persisted by `self._store()` / `_store(status)`
(the steps file written through `__updateStep` is separate and never holds
the run mode). -/
structure ProtRunState where
  runMode : RunMode
  originalRunMode : Option RunMode
  status : Option StStatus
  stepsDone : Nat
  numberOfSteps : Nat
  steps : List FStep
  persistedRunMode : RunMode
  persistedStatus : Option StStatus
  persistedStepsDone : Nat
deriving DecidableEq, Repr

/-- `Protocol._runSteps`: set the progress counters, `setRunning`, keep the
original run mode in `_originalRunMode`, set `runMode` to `MODE_RESUME`
("Always set to resume, even if set to restart"), persist the whole protocol
(`self._store()`), run the steps through the external executor collaborator
(`executor.py` is absent from the sources; the executor is an opaque
parameter returning the updated step list, the resulting `lastStatus` and the
final steps-done count), then set and persist the final status. -/
def runStepsP (p : ProtRunState) (startIndex : Nat)
    (executor : List FStep → List FStep × Option StStatus × Nat) :
    ProtRunState :=
  let p := { p with stepsDone := startIndex,
                    numberOfSteps := p.steps.length,
                    status := some .running }
  let p := { p with originalRunMode := some p.runMode }
  let p := { p with runMode := .resume }
  -- self._store(): persist the full protocol state
  let p := { p with persistedRunMode := p.runMode,
                    persistedStatus := p.status,
                    persistedStepsDone := p.stepsDone }
  let r := executor p.steps
  -- callbacks persisted per-step progress (`_store(self._stepsDone)`)
  let p := { p with steps := r.1, stepsDone := r.2.2,
                    persistedStepsDone := r.2.2 }
  -- self.setStatus(self.lastStatus); self._store(self.status)
  let p := { p with status := r.2.1, persistedStatus := r.2.1 }
  p

/-!
## Graph mapper (`SqliteMapper` / `SqliteDb` in `pyworkflow/mapper/sqlite.py`)

Object names are hierarchical dotted strings built exclusively by
`joinExt(prefix, part)` (= `prefix + "." + part`, from
`pyworkflow/utils/path.py`, absent from the sources) where each part is
either `str(id)` of an object id or an attribute key, and parsed back by
`name.split('.')` with `int(...)` on id parts.  The embedding represents a
name by its list of dot-separated components, each component being either an
id (`NameComp.sid`, written/parsed through Python's exact `str`/`int` round
trip) or an attribute-key string (`NameComp.key`); `joinExt` is list append,
`split('.')` is the identity, and `LIKE 'prefix.%'` is strict list prefix. -/

/-- One dot-separated component of an object name: the decimal rendering of
an object id (`str(obj id)`), or an attribute key. -/
inductive NameComp where
  | sid (n : Nat)
  | key (s : String)
deriving DecidableEq, Repr

/-- An object name: its list of dot-separated components. -/
abbrev ObjName := List NameComp

/-- One value stored in the TEXT `value` column: the decimal rendering of an
object id (what `str(referenced id)` writes and `int(value)` parses back), or
ordinary text. -/
inductive VCell where
  | num (n : Nat)
  | txt (s : String)
deriving DecidableEq, Repr

/-- The in-memory value slot of an Object: a scalar leaf value, or — for a
`Pointer` — the referent (`none` = no referent, `some none` = referent not
yet stored (`value.hasObjId()` false), `some (some r)` = referent stored with
id `r`).  A Pointer keeps only its referent's id for the purposes of this
embedding, which is all the mapper reads (`value.hasObjId()`,
`value.strId()`). -/
inductive OVal where
  | scalar (v : Option VCell)
  | ptr (ref : Option (Option Nat))
deriving DecidableEq, Repr

/-- Modelled from the spec: an Object of `pyworkflow/object.py` (absent from
the sources) as the mapper sees it: `_objId`, `_objName`, `_objParentId`,
`_objLabel`, `_objComment`, its class name, its value slot, and its stored
child attributes (`getAttributesToStore`), as an ordered key/subobject
list. -/
inductive Obj where
  | node (objId : Option Nat) (name : ObjName) (parentId : Option Nat)
         (label : Option String) (comment : Option String) (cls : String)
         (val : OVal) (children : List (String × Obj))

def Obj.objId : Obj → Option Nat
  | .node i _ _ _ _ _ _ _ => i

def Obj.name : Obj → ObjName
  | .node _ n _ _ _ _ _ _ => n

def Obj.parentId : Obj → Option Nat
  | .node _ _ p _ _ _ _ _ => p

def Obj.label : Obj → Option String
  | .node _ _ _ l _ _ _ _ => l

def Obj.comment : Obj → Option String
  | .node _ _ _ _ c _ _ _ => c

def Obj.cls : Obj → String
  | .node _ _ _ _ _ c _ _ => c

def Obj.val : Obj → OVal
  | .node _ _ _ _ _ _ v _ => v

def Obj.children : Obj → List (String × Obj)
  | .node _ _ _ _ _ _ _ cs => cs

/-- `Object.strId`: `str(self._objId)` (string `"None"` when the id is
unset, as Python's `str(None)` renders it). -/
def strId : Option Nat → NameComp
  | some n => .sid n
  | none => .key "None"

/-- Rendering of one name component back to text. -/
def compToStr : NameComp → String
  | .sid n => toString n
  | .key s => s

/-- `Object.getName` rendering of a dotted name. -/
def nameToString (n : ObjName) : String :=
  String.intercalate "." (n.map compToStr)

/-- One row of the `Objects` table:
`(id, parent_id, name, classname, value, label, comment)`. -/
structure Row where
  id : Nat
  parentId : Option Nat
  name : ObjName
  classname : String
  value : Option VCell
  label : Option String
  comment : Option String
deriving DecidableEq, Repr

/-- The `Objects` table of one `SqliteDb`: its rows in insertion order, plus
the next `AUTOINCREMENT` id (`lastrowid` of the next insert). -/
structure Db where
  rows : List Row
  nextId : Nat
deriving DecidableEq, Repr

/-- `SqliteDb.insertObject`: append the row, returning the fresh
`lastrowid`. -/
def Db.insertObject (db : Db) (name : ObjName) (classname : String)
    (value : Option VCell) (parentId : Option Nat)
    (label comment : Option String) : Db × Nat :=
  ({ rows := db.rows ++ [⟨db.nextId, parentId, name, classname, value, label, comment⟩],
     nextId := db.nextId + 1 }, db.nextId)

/-- `SqliteDb.updateObject`: `UPDATE Objects SET ... WHERE id=?`.  A `None`
id matches no row (SQL `id=NULL` is never true). -/
def Db.updateObject (db : Db) (objId : Option Nat) (name : ObjName)
    (classname : String) (value : Option VCell) (parentId : Option Nat)
    (label comment : Option String) : Db :=
  { db with rows := db.rows.map (fun r =>
      if some r.id == objId then
        { r with parentId := parentId, name := name, classname := classname,
                 value := value, label := label, comment := comment }
      else r) }

/-- `SqliteDb.selectObjectById`: `SELECT ... WHERE id=?` (`fetchone`; `id` is
the primary key, so the first match is the row). -/
def Db.selectObjectById (db : Db) (objId : Nat) : Option Row :=
  db.rows.find? (fun r => r.id == objId)

/-- `name LIKE 'prefix.%'` on component lists: `prefix` is a strict prefix of
`name`. -/
def likeAncestor (pfx name : ObjName) : Bool :=
  pfx.isPrefixOf name && decide (pfx.length < name.length)

/-- Insertion of one row into a list sorted by ascending id (for `ORDER BY
id`). -/
def insertById (r : Row) : List Row → List Row
  | [] => [r]
  | x :: xs => if r.id ≤ x.id then r :: x :: xs else x :: insertById r xs

/-- `ORDER BY id`: sort rows by ascending id (insertion sort — sqlite's
ordering is stable only up to id ties, and ids are unique). -/
def sortRowsById : List Row → List Row
  | [] => []
  | x :: xs => insertById x (sortRowsById xs)

/-- `SqliteDb.selectObjectsByAncestor`:
`SELECT ... WHERE name LIKE 'prefix.%' ORDER BY id`. -/
def Db.selectObjectsByAncestor (db : Db) (pfx : ObjName) : List Row :=
  sortRowsById (db.rows.filter (fun r => likeAncestor pfx r.name))

/-- `SqliteMapper.__getObjectValue`, pure part: the cell to store for a value
slot, and whether the owning object must be queued on
`updatePendingPointers`.  Scalars store their value; a `Pointer` with a
stored referent stores the referent's id (`value.strId()`); a `Pointer`
whose referent has no id yet stores the text `"Pending update"` and is
queued as pending. -/
def getObjectValueRaw : OVal → Option VCell × Bool
  | .scalar v => (v, false)
  | .ptr none => (none, false)
  | .ptr (some none) => (some (.txt "Pending update"), true)
  | .ptr (some (some r)) => (some (.num r), false)

/-- An entry of `SqliteMapper.updatePendingPointers`.  Python stores the
pointer object itself and reads its fields only after the walk has assigned
its id; the embedding records those post-walk fields. -/
structure PendingPtr where
  objId : Option Nat
  name : ObjName
  cls : String
  parentId : Option Nat
  label : Option String
  comment : Option String
deriving DecidableEq, Repr

/-- The message of the structural cycle error raised by
`SqliteMapper.__updateTo`:
`'Circular reference, object: %s found twice' % obj.getName()`. -/
def circularMsg (nm : String) : String :=
  "Circular reference, object: " ++ nm ++ " found twice"

/-- `SqliteMapper.__getNamePrefix`: if the object's name is non-empty and
dotted (≥ 2 components), replace its last component by `strId`
(`replaceExt`), else just `strId`. -/
def getNamePrefix (name : ObjName) (objId : Option Nat) : ObjName :=
  if 2 ≤ name.length then name.dropLast ++ [strId objId] else [strId objId]

mutual

/-- `SqliteMapper.__insert` (with the `insertChild` field assignments made
explicit): insert the object's row under the name `asName` and parent
`asParent` (Python sets `attr._objName` / `attr._objParentId` in place before
the recursive call), obtaining a fresh id; extend the name prefix with
`str(id)`; recursively insert every child attribute.  Returns the grown
database, the object with ids/names assigned, and the grown pending-pointer
queue. -/
def insertObjW (db : Db) (o : Obj) (asName : ObjName) (asParent : Option Nat)
    (namePrefix : Option ObjName) (pend : List PendingPtr) :
    Db × Obj × List PendingPtr :=
  match o with
  | .node _ _ _ label comment cls val children =>
    let gv := getObjectValueRaw val
    let ins := Db.insertObject db asName cls gv.1 asParent label comment
    let newId := ins.2
    let pend1 := if gv.2 then
        pend ++ [⟨some newId, asName, cls, asParent, label, comment⟩]
      else pend
    let pfx := match namePrefix with
      | none => [strId (some newId)]
      | some p => p ++ [strId (some newId)]
    let rc := insertChilds ins.1 children newId pfx pend1
    (rc.1, .node (some newId) asName asParent label comment cls val rc.2.1,
     rc.2.2)

/-- `SqliteMapper.insertChilds`: for each `(key, attr)` of
`getAttributesToStore`, set `attr._objName = joinExt(namePrefix, key)` and
`attr._objParentId = obj._objId`, then `__insert(attr, namePrefix)`. -/
def insertChilds (db : Db) (children : List (String × Obj)) (parentId : Nat)
    (pfx : ObjName) (pend : List PendingPtr) :
    Db × List (String × Obj) × List PendingPtr :=
  match children with
  | [] => (db, [], pend)
  | (k, c) :: rest =>
    let r := insertObjW db c (pfx ++ [.key k]) (some parentId) (some pfx) pend
    let rr := insertChilds r.1 rest parentId pfx r.2.2
    (rr.1, (k, r.2.1) :: rr.2.1, rr.2.2)

end

/-- `SqliteMapper.insert`: `__insert(obj)` with no name prefix — the root row
keeps the object's own pre-existing `_objName` and `_objParentId`. -/
def insertTop (db : Db) (o : Obj) : Db × Obj × List PendingPtr :=
  insertObjW db o o.name o.parentId none []

mutual

/-- `SqliteMapper.__updateTo`: update the object's row, fail with a
`Circular reference` error if its id was already visited in this pass
(`updateDict`), record it as visited, then walk its child attributes:
children without an id are freshly inserted under this object's name prefix,
children with an id are updated recursively. -/
def updateToAux (db : Db) (o : Obj) (dict : List (Option Nat))
    (pend : List PendingPtr) :
    Except String (Db × List (Option Nat) × List PendingPtr) :=
  match o with
  | .node objId name parentId label comment cls val children =>
    let gv := getObjectValueRaw val
    let db := Db.updateObject db objId name cls gv.1 parentId label comment
    let pend := if gv.2 then
        pend ++ [⟨objId, name, cls, parentId, label, comment⟩]
      else pend
    if objId ∈ dict then
      .error (circularMsg (nameToString name))
    else
      updateChilds db children objId (getNamePrefix name objId)
        (dict ++ [objId]) pend

/-- The child loop of `SqliteMapper.__updateTo`: new children (no id) are
inserted via `__insert` with this object's name prefix; existing children
are walked recursively. -/
def updateChilds (db : Db) (children : List (String × Obj))
    (parentObjId : Option Nat) (npfx : ObjName) (dict : List (Option Nat))
    (pend : List PendingPtr) :
    Except String (Db × List (Option Nat) × List PendingPtr) :=
  match children with
  | [] => .ok (db, dict, pend)
  | (k, c) :: rest =>
    if c.objId = none then
      let r := insertObjW db c (npfx ++ [.key k]) parentObjId (some npfx) pend
      updateChilds r.1 rest parentObjId npfx dict r.2.2
    else
      match updateToAux db c dict pend with
      | .error e => .error e
      | .ok r => updateChilds r.1 rest parentObjId npfx r.2.1 r.2.2

end

/-- The fields of an object as `updatePendingPointers` records it when
`__getObjectValue` queues it (`self.updatePendingPointers.append(obj)`): the
queue holds the object itself; its fields are read when the rewrite loop
reaches it. -/
def pendingOf (o : Obj) : PendingPtr :=
  ⟨o.objId, o.name, o.cls, o.parentId, o.label, o.comment⟩

/-- The pending-pointer rewrite loop of `SqliteMapper.updateTo` (the
`for ptr in self.updatePendingPointers` at lines 123-127).  Each iteration
evaluates `self.__getObjectValue(obj)` on the *updateTo argument* `obj`
(line 126 — the bug traced by `pending_rewrite_uses_root_value`), and that
call appends `obj` itself back onto the very queue being iterated whenever
`obj` is a pointer whose referent has no id — so the loop then never reaches
the end of the queue.  The embedding walks the queue with explicit fuel:
`none` means the loop has not finished within `fuel` iterations (for a
self-growing queue no fuel suffices — the divergence,
`rewritePending_diverges`). -/
def rewritePendingLoop (o : Obj) : Nat → Db → List PendingPtr → Option Db
  | _, db, [] => some db
  | 0, _, _ :: _ => none
  | fuel + 1, db, ptr :: rest =>
    rewritePendingLoop o fuel
      (Db.updateObject db ptr.objId ptr.name ptr.cls
        (getObjectValueRaw o.val).1 ptr.parentId ptr.label ptr.comment)
      (if (getObjectValueRaw o.val).2 then rest ++ [pendingOf o] else rest)

/-- `SqliteMapper.updateTo`: clear `updateDict` / `updatePendingPointers`
(`__initUpdateDict`), run the recursive walk, then run the pending-pointer
rewrite loop over the queue the walk collected (`rewritePendingLoop`, with
the line-126 value and the self-append of `__getObjectValue`).  `none` means
the rewrite loop has not finished within `fuel` iterations. -/
def updateTo (fuel : Nat) (db : Db) (o : Obj) : Option (Except String Db) :=
  match updateToAux db o [] [] with
  | .error e => some (.error e)
  | .ok r => (rewritePendingLoop o fuel r.1 r.2.2).map .ok

mutual

/-- The object ids visited by one `__updateTo` pass over a tree: the root's
id, then recursively the ids visited under every child that has an id
(children without an id are handed to `__insert`, which never consults
`updateDict`). -/
def visitedIds (o : Obj) : List (Option Nat) :=
  match o with
  | .node objId _ _ _ _ _ _ children => objId :: visitedChildIds children

/-- Ids visited under a child list (see `visitedIds`). -/
def visitedChildIds : List (String × Obj) → List (Option Nat)
  | [] => []
  | (_, c) :: rest =>
    (if c.objId = none then [] else visitedIds c) ++ visitedChildIds rest

end

/-- Modelled from the spec: `Mapper._buildObject` (in
`pyworkflow/mapper/mapper.py`, absent from the sources) constructs a fresh
instance of the class named by the stored class name through the external
class registry (`classNameToType`): a `Pointer` class name yields a pointer
object, any other a scalar object; the fresh instance has no id, no name and
no dynamically-set child attributes yet. -/
def buildObject (classname : String) : Obj :=
  .node none [] none none none classname
    (if classname == "Pointer" then .ptr none else .scalar none) []

/-- Modelled from the spec: `Mapper._getStrValue` (in
`pyworkflow/mapper/mapper.py`, absent from the sources) passes the stored
text of the `label` / `comment` columns through to the object. -/
def getStrValue (v : Option String) : Option String :=
  v

/-- `SqliteMapper.fillObjectWithRow`: set `_objId`, `_objName`, `_objLabel`,
`_objComment`, `_objParentId` from the row; for a `Pointer`, a non-`NULL`
stored value is parsed with `int(objValue)` (a non-numeric cell — e.g. the
`"Pending update"` text that `__getObjectValue` writes for an unstored
referent — raises `ValueError`) and the referent is loaded through the
recursive `selectById` (passed in as `sel`; the fuel-indexed recursion is
tied below), then `obj.set(objValue)` stores the loaded referent — kept
here by its id, the only part of the referent the round-trip contract
observes, and `None` when the referent row does not exist; a `NULL` cell
stays `None`.  For a scalar, `obj.set(value)` stores the cell.  The
`objDict` registration the source performs here is carried by the caller's
reconstruction state (`FillSt`); a nested referent load starts its own walk
instead of consulting that memo — observationally equal under the id
projection of pointer slots, since a memo hit returns the object registered
under the requested id. -/
def fillObjectWithRow (sel : Db → Nat → Except String (Option Obj))
    (db : Db) (o : Obj) (r : Row) : Except String Obj :=
  match o with
  | .node _ _ _ _ _ cls val children =>
    match val with
    | .ptr _ =>
      match r.value with
      | none =>
        .ok (.node (some r.id) r.name r.parentId (getStrValue r.label)
          (getStrValue r.comment) cls (.ptr none) children)
      | some (.num n) =>
        match sel db n with
        | .error e => .error e
        | .ok none =>
          .ok (.node (some r.id) r.name r.parentId (getStrValue r.label)
            (getStrValue r.comment) cls (.ptr none) children)
        | .ok (some ref) =>
          .ok (.node (some r.id) r.name r.parentId (getStrValue r.label)
            (getStrValue r.comment) cls (.ptr (some ref.objId)) children)
      | some (.txt s) =>
        .error ("ValueError: invalid literal for int(): " ++ s)
    | .scalar _ =>
      .ok (.node (some r.id) r.name r.parentId (getStrValue r.label)
        (getStrValue r.comment) cls (.scalar r.value) children)

/-- Look up a direct child attribute by key (`getattr(parentObj, childName,
None)`). -/
def Obj.getChild (o : Obj) (k : String) : Option Obj :=
  (o.children.find? (fun c => c.1 == k)).map (·.2)

/-- Replace the first entry with the given key by the new subobject (Python
attribute dictionaries hold each key once). -/
def replaceChild : List (String × Obj) → String → Obj → List (String × Obj)
  | [], _, _ => []
  | e :: rest, k, c =>
    if e.1 == k then (k, c) :: rest else e :: replaceChild rest k c

/-- Rebuild a node with a new child list. -/
def Obj.withChildren (o : Obj) (cs : List (String × Obj)) : Obj :=
  match o with
  | .node objId name parentId label comment cls val _ =>
    .node objId name parentId label comment cls val cs

/-- Set a direct child attribute (`setattr` / in-place fill): replace the
entry at key `k`, or append it if absent. -/
def Obj.setChild (o : Obj) (k : String) (c : Obj) : Obj :=
  if (o.children.find? (fun e => e.1 == k)).isSome then
    o.withChildren (replaceChild o.children k c)
  else
    o.withChildren (o.children ++ [(k, c)])

/-- Follow a path of attribute keys down from a root object. -/
def Obj.getAt (o : Obj) : List String → Option Obj
  | [] => some o
  | k :: ks =>
    match o.getChild k with
    | none => none
    | some c => c.getAt ks

/-- Replace the subobject at a path of attribute keys (no-op if the path is
dangling). -/
def Obj.setAt (o : Obj) : List String → Obj → Obj
  | [], c => c
  | k :: ks, c =>
    match o.getChild k with
    | none => o
    | some sub => o.setChild k (sub.setAt ks c)

/-- The reconstruction state of `SqliteMapper.fillObject`: the tree under
construction, and `objDict` mapping each filled object id to its attribute
path from the root (Python maps ids to the live objects; paths address the
same objects inside the pure tree). -/
structure FillSt where
  root : Obj
  objDict : List (Nat × List String)

/-- One iteration of the child loop in `SqliteMapper.fillObject`: split the
row's name, take the last part as the attribute key and `int(parts[-2])` as
the parent id (Python raises on a short name or a non-numeric part); the
parent must already be in `objDict` ("Parent object ... was not found"
otherwise); fetch or build (`_buildObject`) the child attribute of the
parent, fill it from the row, and record its id in `objDict`. -/
def attachRow (sel : Db → Nat → Except String (Option Obj)) (db : Db)
    (st : FillSt) (r : Row) : Except String FillSt :=
  if 2 ≤ r.name.length then
    match r.name.getLast?, r.name[r.name.length - 2]? with
    | some lastComp, some pcomp =>
      let childName := compToStr lastComp
      match pcomp with
      | .key s => .error ("ValueError: invalid literal for int(): " ++ s)
      | .sid parentId =>
        match st.objDict.lookup parentId with
        | none =>
          .error ("Parent object (id=" ++ toString parentId ++ ") was not found")
        | some parentPath =>
          match st.root.getAt parentPath with
          | none =>
            .error ("Parent object (id=" ++ toString parentId ++ ") was not found")
          | some parentObj =>
            let childObj := (parentObj.getChild childName).getD
              (buildObject r.classname)
            match fillObjectWithRow sel db childObj r with
            | .error e => .error e
            | .ok childObj =>
              .ok { root := st.root.setAt parentPath
                      (parentObj.setChild childName childObj),
                    objDict := (r.id, parentPath ++ [childName]) :: st.objDict }
    | _, _ => .error "IndexError: list index out of range"
  else
    .error "IndexError: list index out of range"

/-- `SqliteMapper.fillObject`: fill the root from its row, then fetch every
descendant row by the ancestor prefix query and attach them in `ORDER BY id`
order. -/
def fillObject (sel : Db → Nat → Except String (Option Obj)) (db : Db)
    (o : Obj) (r : Row) : Except String Obj :=
  match fillObjectWithRow sel db o r with
  | .error e => .error e
  | .ok o =>
    let pfx := getNamePrefix o.name o.objId
    let childs := db.selectObjectsByAncestor pfx
    match childs.foldlM (attachRow sel db)
        { root := o, objDict := [(r.id, [])] } with
    | .error e => .error e
    | .ok st => .ok st.root

/-- `SqliteMapper.selectById` on a fresh mapper (empty `objDict` cache):
fetch the row by id, build an object of the stored class and fill it with
its whole attribute subtree — which, through the pointer branch of
`fillObjectWithRow`, re-enters `selectById` to load each referent.  The
source's recursion is bounded in Python by `objDict` memoization and the
interpreter's recursion limit; the embedding bounds it by explicit fuel,
whose exhaustion plays the role of Python's `RecursionError`. -/
def selectById : Nat → Db → Nat → Except String (Option Obj)
  | 0, _, _ => .error "RuntimeError: maximum recursion depth exceeded"
  | fuel + 1, db, objId =>
    match db.selectObjectById objId with
    | none => .ok none
    | some r =>
      match fillObject (fun d i => selectById fuel d i) db
          (buildObject r.classname) r with
      | .error e => .error e
      | .ok o => .ok (some o)

/-- Equivalence of value slots, as the round-trip contract states it:
scalar values equal; a `Pointer` resolved to the referent with the same id,
or equally empty. -/
def valEquiv : OVal → OVal → Bool
  | .scalar v, .scalar w => v == w
  | .ptr none, .ptr none => true
  | .ptr (some (some r)), .ptr (some (some r')) => r == r'
  | _, _ => false

mutual

/-- Tree equivalence, as the round-trip contract states it: the same value at
every node and the same child attribute keys, with equivalent subtrees. -/
def equivObj : Obj → Obj → Bool
  | .node _ _ _ _ _ _ va ca, .node _ _ _ _ _ _ vb cb =>
    valEquiv va vb && equivChildren ca cb

/-- Pairwise equivalence of child lists: same keys in the same order,
equivalent subtrees. -/
def equivChildren : List (String × Obj) → List (String × Obj) → Bool
  | [], [] => true
  | (k, c) :: rest, (k', c') :: rest' =>
    k == k' && equivObj c c' && equivChildren rest rest'
  | _, _ => false

end

mutual

/-- Well-formedness of an in-memory tree handed to `insert` for the
round-trip contract: pointer objects carry the `Pointer` class name and
non-pointers do not (the class registry reconstructs pointer-ness from the
stored class name); every pointer's referent is already stored (the claim's
"original referent's id"); child attribute keys are distinct within a node
(Python attribute dictionaries) and contain no dot (names are parsed by
splitting on dots). -/
def wfObj : Obj → Bool
  | .node _ _ _ _ _ cls val children =>
    (match val with
     | .ptr ref => cls == "Pointer" && ref != some none
     | .scalar _ => cls != "Pointer")
    && (children.map (·.1)).Nodup
    && wfChildren children

/-- Well-formedness of a child list (see `wfObj`). -/
def wfChildren : List (String × Obj) → Bool
  | [] => true
  | (k, c) :: rest =>
    !(k.data.contains '.') && wfObj c && wfChildren rest

end

mutual

/-- The referent ids a tree's `Pointer` slots hold: each of these is fed to
the recursive `selectById` when the read path resolves the corresponding
stored pointer cell. -/
def ptrTargets : Obj → List Nat
  | .node _ _ _ _ _ _ v cs =>
    (match v with
     | .ptr (some (some rid)) => [rid]
     | _ => []) ++ ptrTargetsChildren cs

/-- `ptrTargets` over a child list. -/
def ptrTargetsChildren : List (String × Obj) → List Nat
  | [] => []
  | (_, c) :: rest => ptrTargets c ++ ptrTargetsChildren rest

end

/-- The round-trip experiment of the Graph Mapper contract: insert the tree,
then `selectById` the root's fresh id (with the given recursion fuel) and
compare with the original. -/
def roundTrip (db : Db) (o : Obj) (fuel : Nat) : Bool :=
  let r := insertTop db o
  match r.2.1.objId with
  | none => false
  | some rootId =>
    match selectById fuel r.1 rootId with
    | .ok (some res) => equivObj o res
    | _ => false

/-!
## Flat mapper read path (`SqliteFlatMapper` in `pyworkflow/mapper/sqlite.py`)

What the aliasing claim observes is which in-memory object each read returns
and how its attribute values evolve, so objects live in an explicit heap of
addresses; the mapper's cached template (`self._objTemplate`) is one fixed
address in that heap.  `__objFromRow` re-hydrates the template in place and
returns its address; `clone()` allocates a fresh address holding a copy. -/

/-- One item object handled by the flat mapper: `_objId`, label, comment,
and its leaf attribute values, keyed by the dotted attribute name of
`self._objColumns`. -/
structure FlatItem where
  objId : Option Nat
  label : Option String
  comment : Option String
  attrs : List (String × Option String)
deriving DecidableEq, Repr

/-- One row of the flat `Objects` table: `id, label, comment` plus one cell
per column, keyed here by the attribute name the column maps to (the
`Classes` table's `label_property ↦ column_name` association). -/
structure FlatRow where
  id : Nat
  label : Option String
  comment : Option String
  cols : List (String × Option String)
deriving DecidableEq, Repr

/-- `setAttributeValue`: overwrite one leaf attribute of the template (the
attribute exists in the template built by `__loadObjDict`; a dynamically
missing one is appended). -/
def setAttr (attrs : List (String × Option String)) (k : String)
    (v : Option String) : List (String × Option String) :=
  if (attrs.find? (fun e => e.1 == k)).isSome then
    attrs.map (fun e => if e.1 == k then (k, v) else e)
  else
    attrs ++ [(k, v)]

/-- The body of `SqliteFlatMapper.__objFromRow`: `setObjId`, `setObjLabel`,
`setObjComment` and one `setAttributeValue` per `(column, attrName)` of
`self._objColumns`, applied to the template object.  (The `_mapperPath`
branch also just stores the cell, after arming a load trace.) -/
def hydrate (t : FlatItem) (r : FlatRow) : FlatItem :=
  { objId := some r.id, label := getStrValue r.label,
    comment := getStrValue r.comment,
    attrs := r.cols.foldl (fun a e => setAttr a e.1 e.2) t.attrs }

/-- The flat mapper's object heap: `heap` holds the live items (addresses are
indices), `templateAddr` is the address of the cached `self._objTemplate`. -/
structure FlatSt where
  heap : List FlatItem
  templateAddr : Nat
deriving DecidableEq, Repr

/-- Read the item at an address. -/
def FlatSt.deref (st : FlatSt) (a : Nat) : Option FlatItem :=
  st.heap[a]?

/-- Mutate the item at an address (what a caller does to a returned
object). -/
def FlatSt.writeAddr (st : FlatSt) (a : Nat) (v : FlatItem) : FlatSt :=
  { st with heap := st.heap.set a v }

/-- `SqliteFlatMapper.__objFromRow`: re-hydrate the shared template in place
from the row and return it (its address). -/
def objFromRow (st : FlatSt) (r : FlatRow) : FlatSt × Nat :=
  let t := (st.deref st.templateAddr).getD ⟨none, none, none, []⟩
  (st.writeAddr st.templateAddr (hydrate t r), st.templateAddr)

/-- `Object.clone()` on a returned item: allocate a fresh object holding a
copy of the item's current state. -/
def cloneAt (st : FlatSt) (a : Nat) : FlatSt × Nat :=
  ({ st with heap := st.heap ++ [(st.deref a).getD ⟨none, none, none, []⟩] },
   st.heap.length)

/-- `SqliteFlatMapper.__objectsFromRows` with `iterate=True` (also the shape
of `__iterObjectsFromRows`): the generator's successive yields — for each
row, the state after re-hydrating the template, and the yielded address. -/
def iterYields (st : FlatSt) : List FlatRow → List (FlatSt × Nat)
  | [] => []
  | r :: rest =>
    let y := objFromRow st r
    y :: iterYields y.1 rest

/-- `SqliteFlatMapper.__objectsFromRows` with `iterate=False`:
`[obj.clone() for obj in self.__iterObjectsFromRows(objRows)]` — each yield
is cloned into an independent object; returns the final state and the list
of returned addresses. -/
def listFromRows (st : FlatSt) : List FlatRow → FlatSt × List Nat
  | [] => (st, [])
  | r :: rest =>
    let y := objFromRow st r
    let c := cloneAt y.1 y.2
    let rr := listFromRows c.1 rest
    (rr.1, c.2 :: rr.2)

/-- `SqliteFlatMapper.selectById`: fetch the row by id and `__objFromRow` it
— the returned object is the shared template. -/
def flatSelectById (st : FlatSt) (rows : List FlatRow) (objId : Nat) :
    FlatSt × Option Nat :=
  match rows.find? (fun r => r.id == objId) with
  | none => (st, none)
  | some r =>
    let y := objFromRow st r
    (y.1, some y.2)

/-!
## Theorems
-/

/-- C7: whenever a Protocol's runMode equals `MODE_RESTART`,
`__findStartingStep` returns 0 and discards the previously persisted step
list: it sets `prevSteps` to the empty list and does not consult the stored
steps file (the result is the same constant whatever `stored` holds), so
execution begins at the first step regardless of any previously finished
steps. -/
theorem restart_resumes_at_zero (steps stored : List FStep)
    (fs : List String) :
    findStartingStep .restart steps stored fs = (0, steps, []) :=
  rfl

/-- C9: after `_runSteps` returns — whatever the executor did — the
Protocol's persisted runMode equals `MODE_RESUME` even when the run was
started with `MODE_RESTART`; the original mode is kept only in the in-memory
attribute `_originalRunMode`. -/
theorem restart_is_one_shot (p : ProtRunState) (startIndex : Nat)
    (executor : List FStep → List FStep × Option StStatus × Nat) :
    (runStepsP p startIndex executor).persistedRunMode = .resume ∧
    (runStepsP p startIndex executor).runMode = .resume ∧
    (runStepsP p startIndex executor).originalRunMode = some p.runMode := by
  refine ⟨rfl, rfl, rfl⟩

/-- C3: `Step.run` never propagates an exception of the step body: `endTime`
is stamped in every outcome; if the body raises, the status becomes `FAILED`
and the error message is the exception's text; if the body returns normally
(leaving the status `RUNNING`, which no step body in the core touches), the
status becomes `INTERACTIVE` when the interactive flag is set and `FINISHED`
otherwise. -/
theorem step_run_contains_failure (s : FStep)
    (body : FStep → FStep × Option String) (t1 t2 : Nat) :
    (stepRun s body t1 t2).endTime = some t2 ∧
    (∀ e, (body (setRunning s t1)).2 = some e →
      (stepRun s body t1 t2).status = some .failed ∧
      (stepRun s body t1 t2).errorMsg = some e) ∧
    ((body (setRunning s t1)).2 = none →
      (body (setRunning s t1)).1.status = some .running →
      (stepRun s body t1 t2).status =
        some (if (body (setRunning s t1)).1.isInteractive then
          StStatus.interactive else .finished)) := by
  unfold stepRun
  refine ⟨?_, ?_, ?_⟩
  · cases h : (body (setRunning s t1)).2 <;> simp [h]
  · intro e he
    simp [he, setFailed]
  · intro hn hs
    simp [hn, hs]

/-- Witness for `step_run_contains_failure`: a body that raises `"boom"` and
a body that returns normally on an interactive step, evaluated
concretely. -/
theorem step_run_contains_failure_witness :
    let s0 : FStep := ⟨some "f", some "args", none, none, none, none, true,
      none, [], none⟩
    let failing : FStep → FStep × Option String := fun st => (st, some "boom")
    let finishing : FStep → FStep × Option String := fun st => (st, none)
    ((stepRun s0 failing 3 7).status = some .failed ∧
      (stepRun s0 failing 3 7).errorMsg = some "boom") ∧
    (stepRun s0 finishing 3 7).status = some .interactive ∧
    (stepRun s0 failing 3 7).endTime = some 7 := by
  intro s0 failing finishing
  refine ⟨(step_run_contains_failure s0 failing 3 7).2.1 "boom" rfl, ?_, ?_⟩
  · have h := (step_run_contains_failure s0 finishing 3 7).2.2 rfl rfl
    simpa using h
  · exact (step_run_contains_failure s0 failing 3 7).1

/-- Folding `__insertStep` over fresh steps, starting from any `_steps`
list: lengths add up, the returned indices are the successive 1-based
positions, the pre-existing prefix is untouched, and every newly inserted
step carries its 1-based position as `_index` and — having been inserted with
no explicit prerequisites — exactly the previous position as prerequisite
(none for the very first step of the protocol). -/
theorem insertAll_spec (l : List FStep) : ∀ (steps : List FStep),
    (∀ s ∈ l, s.prerequisites = []) →
    (insertAll steps l).1.length = steps.length + l.length ∧
    (insertAll steps l).2 = List.range' (steps.length + 1) l.length ∧
    (∀ j, j < steps.length → (insertAll steps l).1[j]? = steps[j]?) ∧
    (∀ j, steps.length ≤ j → ∀ st, (insertAll steps l).1[j]? = some st →
        st.index = some (j + 1) ∧
        st.prerequisites = (if j = 0 then [] else [j])) := by
  induction l with
  | nil =>
    intro steps _
    refine ⟨rfl, rfl, fun j _ => rfl, fun j h1 st hst => ?_⟩
    obtain ⟨h2, -⟩ := List.getElem?_eq_some_iff.mp hst
    simp only [insertAll] at h2
    omega
  | cons s rest ih =>
    intro steps hfresh
    have hs : s.prerequisites = [] := hfresh s (by simp)
    have hrest : ∀ x ∈ rest, x.prerequisites = [] :=
      fun x hx => hfresh x (by simp [hx])
    -- the step as inserted
    have hstep : insertStep steps s none =
        (steps ++ [{ s with
            prerequisites := if steps.length ≠ 0 then [steps.length] else [],
            index := some (steps.length + 1) }], steps.length + 1) := by
      by_cases h : steps.length = 0 <;> simp [insertStep, h, hs]
    set s' : FStep := { s with
        prerequisites := if steps.length ≠ 0 then [steps.length] else [],
        index := some (steps.length + 1) } with hs'
    have hunf : insertAll steps (s :: rest) =
        ((insertAll (steps ++ [s']) rest).1,
          (steps.length + 1) :: (insertAll (steps ++ [s']) rest).2) := by
      simp [insertAll, hstep]
    obtain ⟨ihlen, ihret, ihpre, ihnew⟩ := ih (steps ++ [s']) hrest
    have hlen' : (steps ++ [s']).length = steps.length + 1 := by simp
    refine ⟨?_, ?_, ?_, ?_⟩
    · rw [hunf]
      simp only [ihlen, hlen', List.length_cons]
      omega
    · simp only [hunf, ihret, hlen', List.length_cons]
      rfl
    · intro j hj
      rw [hunf]
      rw [ihpre j (by simp only [hlen']; omega)]
      exact List.getElem?_append_left hj
    · intro j h1 st hst
      rw [hunf] at hst
      by_cases hje : j = steps.length
      · subst hje
        rw [ihpre steps.length (by simp only [hlen']; omega),
          List.getElem?_concat_length] at hst
        cases hst
        rw [hs']
        constructor
        · rfl
        · by_cases h : steps.length = 0 <;> simp [h]
      · exact ihnew j (by simp only [hlen']; omega) st hst

/-- C10: for every sequence of step insertions into a Protocol starting from
an empty `_steps` list, the i-th inserted step gets `_index` equal to its
1-based position and `__insertStep` returns that index (first conjunct: one
insertion into any list; second conjunct: the whole fold); and when no
`prerequisites` argument is supplied, every inserted step except the first
gets exactly one prerequisite — the index of the immediately preceding step —
while the first step gets none. -/
theorem insert_step_indexing :
    (∀ (steps : List FStep) (step : FStep) (pr : Option (List Nat)),
        (insertStep steps step pr).2 = steps.length + 1 ∧
        (insertStep steps step pr).1.length = steps.length + 1 ∧
        ((insertStep steps step pr).1.map (·.index)).getLast? =
          some (some (steps.length + 1))) ∧
    ∀ (l : List FStep), (∀ s ∈ l, s.prerequisites = []) →
      (insertAll [] l).2 = List.range' 1 l.length ∧
      (insertAll [] l).1.length = l.length ∧
      ∀ j st, (insertAll [] l).1[j]? = some st →
        st.index = some (j + 1) ∧
        st.prerequisites = (if j = 0 then [] else [j]) := by
  constructor
  · intro steps step pr
    refine ⟨by cases pr <;> simp [insertStep], by cases pr <;> simp [insertStep], ?_⟩
    cases pr <;> simp [insertStep]
  · intro l hl
    obtain ⟨hlen, hret, _, hnew⟩ := insertAll_spec l [] hl
    exact ⟨by simpa using hret, by simpa using hlen,
      fun j st hst => hnew j (by simp) st hst⟩

/-- Witness for `insert_step_indexing`: three fresh steps inserted in
sequence get indices 1, 2, 3, prerequisites `[]`, `[1]`, `[2]`. -/
theorem insert_step_indexing_witness :
    let mk : String → FStep := fun n =>
      ⟨some n, some "()", none, none, none, none, false, none, [], none⟩
    let l := [mk "a", mk "b", mk "c"]
    (insertAll [] l).2 = [1, 2, 3] ∧
    ((insertAll [] l).1[1]?.map (·.index) = some (some 2) ∧
      (insertAll [] l).1[1]?.map (·.prerequisites) = some [1]) := by
  intro mk l
  obtain ⟨h1, hlen, h3⟩ := insert_step_indexing.2 l (by decide)
  refine ⟨by simpa using h1, ?_⟩
  have hx : ∃ st, (insertAll [] l).1[1]? = some st := by
    have : 1 < (insertAll [] l).1.length := by rw [hlen]; decide
    exact ⟨_, List.getElem?_eq_getElem this⟩
  obtain ⟨st, hst⟩ := hx
  obtain ⟨hi, hp⟩ := h3 1 st hst
  rw [hst]
  simp [hi, hp]

/-- If every compared position satisfies the three resume conditions, the
lock-step walk runs off the shorter list and returns `i +` the minimum
length. -/
theorem findAux_all (fs : List String) :
    ∀ (news olds : List FStep) (i : Nat),
    (∀ j (h1 : j < news.length) (h2 : j < olds.length),
        stepOk fs news[j] olds[j]) →
    (findStartingStepAux fs news olds i).1 =
      i + min news.length olds.length := by
  intro news
  induction news with
  | nil =>
    intro olds i _
    simp [findStartingStepAux]
  | cons n ns ih =>
    intro olds i h
    cases olds with
    | nil => simp [findStartingStepAux]
    | cons o os =>
      obtain ⟨hf, he, hp⟩ := h 0 (by simp) (by simp)
      simp only [List.getElem_cons_zero] at hf he hp
      have ihr := ih os (i + 1) (fun j h1 h2 => by
        have := h (j + 1) (by simpa using Nat.succ_lt_succ h1)
          (by simpa using Nat.succ_lt_succ h2)
        simpa using this)
      have hcondF : (!o.isFinished || !stepEqB n o
          || !postconditionsB fs o) = false := by
        simp [hf, he, hp]
      simp [findStartingStepAux, hcondF, ihr]
      omega

/-- If the first `N` positions satisfy the three resume conditions and
position `N` (present in both lists) violates at least one, the lock-step
walk stops at `N`: it returns `i + N`, the first `N` new steps get the old
steps' state copied onto them, and the remaining new steps are untouched. -/
theorem findAux_stop (fs : List String) :
    ∀ (N : Nat) (news olds : List FStep) (i : Nat)
      (hN1 : N < news.length) (hN2 : N < olds.length),
    (∀ j (h1 : j < N), stepOk fs news[j] olds[j]) →
    ¬ stepOk fs news[N] olds[N] →
    (findStartingStepAux fs news olds i).1 = i + N ∧
    (∀ j (h1 : j < N), (findStartingStepAux fs news olds i).2[j]? =
        some (copyStep news[j] olds[j])) ∧
    (∀ j, N ≤ j → (findStartingStepAux fs news olds i).2[j]? = news[j]?) := by
  intro N
  induction N with
  | zero =>
    intro news olds i hN1 hN2 _ hviol
    cases news with
    | nil => simp at hN1
    | cons n ns =>
      cases olds with
      | nil => simp at hN2
      | cons o os =>
        simp only [List.getElem_cons_zero] at hviol
        have hcond : (!o.isFinished || !stepEqB n o
            || !postconditionsB fs o) = true := by
          cases hb1 : o.isFinished <;> cases hb2 : stepEqB n o <;>
            cases hb3 : postconditionsB fs o <;> simp_all [stepOk]
        simp only [findStartingStepAux, hcond]
        exact ⟨rfl, fun j h1 => absurd h1 (by omega), fun j _ => rfl⟩
  | succ N ihN =>
    intro news olds i hN1 hN2 hpre hviol
    cases news with
    | nil => simp at hN1
    | cons n ns =>
      cases olds with
      | nil => simp at hN2
      | cons o os =>
        obtain ⟨hf, he, hp⟩ := hpre 0 (by omega)
        simp only [List.getElem_cons_zero] at hf he hp
        have hN1' : N < ns.length := by simpa using hN1
        have hN2' : N < os.length := by simpa using hN2
        have hviol' : ¬ stepOk fs ns[N] os[N] := by
          simpa using hviol
        have hpre' : ∀ j (h1 : j < N),
            stepOk fs ns[j] os[j] := fun j h1 => by
          have := hpre (j + 1) (by omega)
          simpa using this
        obtain ⟨ih1, ih2, ih3⟩ := ihN ns os (i + 1) hN1' hN2' hpre' hviol'
        have hcondF : (!o.isFinished || !stepEqB n o
            || !postconditionsB fs o) = false := by
          simp [hf, he, hp]
        simp only [findStartingStepAux, hcondF, Bool.false_eq_true,
          if_false]
        refine ⟨by rw [ih1]; omega, ?_, ?_⟩
        · intro j h1
          cases j with
          | zero => simp
          | succ j' =>
            have := ih2 j' (by omega)
            simpa using this
        · intro j hj
          cases j with
          | zero => omega
          | succ j' =>
            have := ih3 j' (by omega)
            simpa using this

/-- C6: in resume mode, if at every position up to the length of the shorter
of the persisted and freshly computed step lists the old step is FINISHED,
equal to the new step, and passes its postcondition check, then
`__findStartingStep` returns that length; in particular, re-running an
unchanged Protocol that previously ran to completion (equal-length lists)
yields a resume index equal to the step count, so zero steps are
re-executed. -/
theorem resume_idempotent_at_end (steps stored : List FStep)
    (fs : List String)
    (h : ∀ j (h1 : j < steps.length) (h2 : j < stored.length),
        stepOk fs steps[j] stored[j]) :
    (findStartingStep .resume steps stored fs).1 =
      min steps.length stored.length ∧
    (stored.length = steps.length →
      (findStartingStep .resume steps stored fs).1 = steps.length) := by
  have hx := findAux_all fs steps stored 0 h
  have h1 : (findStartingStep .resume steps stored fs).1 =
      min steps.length stored.length := by
    simpa [findStartingStep] using hx
  exact ⟨h1, fun hlen => by rw [h1, hlen]; omega⟩

/-- Witness for `resume_idempotent_at_end`: two finished, unchanged steps
give resume index 2 (= step count). -/
theorem resume_idempotent_at_end_witness :
    let A : FStep := ⟨some "a", some "x", some .finished, none, none, none,
      false, none, [], some 1⟩
    let B : FStep := ⟨some "b", some "y", some .finished, none, none, none,
      false, none, [], some 2⟩
    (findStartingStep .resume [A, B] [A, B] []).1 = 2 := by
  intro A B
  have := (resume_idempotent_at_end [A, B] [A, B] []
    (fun j h1 h2 => by
      simp only [List.length_cons, List.length_nil] at h1
      interval_cases j <;>
        simp only [List.getElem_cons_zero, List.getElem_cons_succ] <;>
        exact ⟨by decide, by decide, by decide⟩)).2 rfl
  simpa using this

/-- C2: in resume mode, for persisted/fresh step lists whose first `N`
positions each hold an old step that is FINISHED, equal to the new step
(same bound function name and serialized arguments), and passes its
postcondition check, while position `N` violates at least one of those three
conditions, `__findStartingStep` returns exactly `N`; each position before
`N` gets the old step's persisted state copied onto the new step object, and
positions from `N` on are untouched. -/
theorem resume_point_deterministic (steps stored : List FStep)
    (fs : List String) (N : Nat) (hN1 : N < steps.length)
    (hN2 : N < stored.length)
    (hpre : ∀ j (h1 : j < N), stepOk fs steps[j] stored[j])
    (hviol : ¬ stepOk fs steps[N] stored[N]) :
    (findStartingStep .resume steps stored fs).1 = N ∧
    (∀ j (h1 : j < N),
        (findStartingStep .resume steps stored fs).2.1[j]? =
          some (copyStep steps[j] stored[j])) ∧
    (∀ j, N ≤ j →
        (findStartingStep .resume steps stored fs).2.1[j]? = steps[j]?) := by
  obtain ⟨h1, h2, h3⟩ := findAux_stop fs N steps stored 0 hN1 hN2 hpre hviol
  refine ⟨by simpa [findStartingStep] using h1, ?_, ?_⟩
  · intro j hj
    have := h2 j hj
    simpa [findStartingStep] using this
  · intro j hj
    have := h3 j hj
    simpa [findStartingStep] using this

/-- Witness for `resume_point_deterministic`: one finished unchanged step,
then a step whose serialized arguments changed — resume index 1, position 0
copied, position 1 untouched. -/
theorem resume_point_deterministic_witness :
    let A : FStep := ⟨some "a", some "x", some .finished, none, none, none,
      false, none, [], none⟩
    let Anew : FStep := ⟨some "a", some "x", none, none, none, none, false,
      none, [], some 1⟩
    let B : FStep := ⟨some "b", some "y", some .finished, none, none, none,
      false, none, [], none⟩
    let Bnew : FStep := ⟨some "b", some "z", none, none, none, none, false,
      none, [], some 2⟩
    (findStartingStep .resume [Anew, Bnew] [A, B] []).1 = 1 ∧
    (findStartingStep .resume [Anew, Bnew] [A, B] []).2.1[0]? =
      some (copyStep Anew A) ∧
    (findStartingStep .resume [Anew, Bnew] [A, B] []).2.1[1]? = some Bnew := by
  intro A Anew B Bnew
  obtain ⟨h1, h2, h3⟩ := resume_point_deterministic [Anew, Bnew] [A, B] []
    1 (by decide) (by decide)
    (fun j hj => by
      interval_cases j
      simp only [List.getElem_cons_zero]
      exact ⟨by decide, by decide, by decide⟩)
    (by
      simp only [List.getElem_cons_succ, List.getElem_cons_zero]
      decide)
  exact ⟨h1, by simpa using h2 0 (by decide), by simpa using h3 1 (by decide)⟩

/-- The generator of `__iterObjectsFromRows` produces exactly one yield per
row. -/
theorem iterYields_length (st : FlatSt) (rows : List FlatRow) :
    (iterYields st rows).length = rows.length := by
  induction rows generalizing st with
  | nil => rfl
  | cons r rest ih => simp [iterYields, ih]

/-- Every yield of the iterating read path returns the template's address,
and re-hydration changes neither the template address nor the heap size. -/
theorem iterYields_addr (rows : List FlatRow) : ∀ (st : FlatSt),
    ∀ y ∈ iterYields st rows, y.2 = st.templateAddr ∧
      y.1.templateAddr = st.templateAddr ∧
      y.1.heap.length = st.heap.length := by
  induction rows with
  | nil => intro st y hy; simp [iterYields] at hy
  | cons r rest ih =>
    intro st y hy
    simp only [iterYields, List.mem_cons] at hy
    rcases hy with hy | hy
    · subst hy
      refine ⟨rfl, rfl, ?_⟩
      simp [objFromRow, FlatSt.writeAddr]
    · have := ih (objFromRow st r).1 y hy
      simpa [objFromRow, FlatSt.writeAddr] using this

/-- After the k-th yield of the iterating read path, the template object —
the object every previous yield returned — holds the k-th row's hydration. -/
theorem iterYields_template (rows : List FlatRow) : ∀ (st : FlatSt),
    st.templateAddr < st.heap.length →
    ∀ k (hk : k < rows.length), ∃ t,
      (((iterYields st rows).get ⟨k,
          by rw [iterYields_length]; exact hk⟩).1).deref st.templateAddr =
        some (hydrate t rows[k]) := by
  induction rows with
  | nil => intro st _ k hk; simp at hk
  | cons r rest ih =>
    intro st hta k hk
    cases k with
    | zero =>
      refine ⟨(st.deref st.templateAddr).getD ⟨none, none, none, []⟩, ?_⟩
      simp [iterYields, objFromRow, FlatSt.writeAddr, FlatSt.deref,
        List.getElem?_set_self', hta]
    | succ k' =>
      have hta' : (objFromRow st r).1.templateAddr <
          (objFromRow st r).1.heap.length := by
        simpa [objFromRow, FlatSt.writeAddr] using hta
      have hk' : k' < rest.length := by simpa using hk
      obtain ⟨t, ht⟩ := ih (objFromRow st r).1 hta' k' hk'
      refine ⟨t, ?_⟩
      simpa [iterYields, objFromRow] using ht

/-- The addresses returned by the cloning (`iterate=False`) read path are
the freshly allocated ones past the end of the initial heap, in order; the
final heap holds one extra object per row. -/
theorem listFromRows_addrs (rows : List FlatRow) : ∀ (st : FlatSt),
    (listFromRows st rows).2 = List.range' st.heap.length rows.length ∧
    (listFromRows st rows).1.heap.length = st.heap.length + rows.length := by
  induction rows with
  | nil => intro st; simp [listFromRows]
  | cons r rest ih =>
    intro st
    have hlen1 : (cloneAt (objFromRow st r).1
        (objFromRow st r).2).1.heap.length = st.heap.length + 1 := by
      simp [cloneAt, objFromRow, FlatSt.writeAddr]
    have haddr : (cloneAt (objFromRow st r).1 (objFromRow st r).2).2 =
        st.heap.length := by
      simp [cloneAt, objFromRow, FlatSt.writeAddr]
    obtain ⟨ih1, ih2⟩ := ih (cloneAt (objFromRow st r).1 (objFromRow st r).2).1
    constructor
    · simp only [listFromRows, ih1, hlen1, haddr, List.length_cons]
      rfl
    · simp only [listFromRows, ih2, hlen1, List.length_cons]
      omega

/-- C8: `SqliteFlatMapper.selectBy` / `selectAll` with `iterate=False`
return a list of independent clones — pairwise distinct fresh addresses,
never the shared template, so mutating one returned object leaves every
other returned object unchanged — whereas iterating with `iterate=True`
yields the one shared template object at every step, so producing the next
row overwrites the attribute values of every previously returned object
(after the k-th yield the template holds the k-th row's hydration), and
`selectById` likewise returns the shared template. -/
theorem flat_mapper_read_aliasing (st : FlatSt) (rows : List FlatRow)
    (objId : Nat) (hta : st.templateAddr < st.heap.length) :
    ((listFromRows st rows).2.Nodup ∧
      st.templateAddr ∉ (listFromRows st rows).2 ∧
      (∀ a b, a ∈ (listFromRows st rows).2 → b ∈ (listFromRows st rows).2 →
        a ≠ b → ∀ v,
          ((listFromRows st rows).1.writeAddr a v).deref b =
            (listFromRows st rows).1.deref b)) ∧
    (∀ y ∈ iterYields st rows, y.2 = st.templateAddr) ∧
    (∀ k (hk : k < rows.length), ∃ t,
        (((iterYields st rows).get ⟨k,
            by rw [iterYields_length]; exact hk⟩).1).deref st.templateAddr =
          some (hydrate t rows[k])) ∧
    (∀ a, (flatSelectById st rows objId).2 = some a →
        a = st.templateAddr) := by
  obtain ⟨haddrs, -⟩ := listFromRows_addrs rows st
  refine ⟨⟨?_, ?_, ?_⟩, ?_, ?_, ?_⟩
  · rw [haddrs]
    exact List.nodup_range' _ _
  · rw [haddrs]
    intro hmem
    have := List.mem_range'_1.mp hmem
    omega
  · intro a b _ _ hab v
    exact List.getElem?_set_ne hab
  · intro y hy
    exact (iterYields_addr rows st y hy).1
  · exact iterYields_template rows st hta
  · intro a ha
    unfold flatSelectById at ha
    cases hfind : rows.find? (fun r => r.id == objId) with
    | none => rw [hfind] at ha; simp at ha
    | some r =>
      rw [hfind] at ha
      simp [objFromRow] at ha
      omega

mutual

/-- Characterization of one `__updateTo` visit: it succeeds exactly when the
ids it would visit are pairwise distinct and none of them was already in
`updateDict`; on success `updateDict` has grown by the visited ids in order,
and on failure the raised error is the structural `Circular reference`
one. -/
theorem updateToAux_spec (o : Obj) : ∀ (db : Db) (dict : List (Option Nat))
    (pend : List PendingPtr),
    (match updateToAux db o dict pend with
     | .ok r => r.2.1 = dict ++ visitedIds o ∧ (visitedIds o).Nodup ∧
         ∀ i ∈ visitedIds o, i ∉ dict
     | .error e => (∃ nm, e = circularMsg nm) ∧
         ¬ ((visitedIds o).Nodup ∧ ∀ i ∈ visitedIds o, i ∉ dict)) := by
  match o with
  | .node objId name parentId label comment cls val children =>
    intro db dict pend
    rw [updateToAux]
    by_cases hmem : objId ∈ dict
    · simp only [if_pos hmem]
      refine ⟨⟨_, rfl⟩, fun h => ?_⟩
      exact h.2 objId (by simp [visitedIds]) hmem
    · simp only [if_neg hmem]
      have hspec := updateChilds_spec children
        (Db.updateObject db objId name cls (getObjectValueRaw val).1
          parentId label comment) objId (getNamePrefix name objId)
        (dict ++ [objId])
        (if (getObjectValueRaw val).2 then
          pend ++ [⟨objId, name, cls, parentId, label, comment⟩] else pend)
      cases hc : updateChilds (Db.updateObject db objId name cls
          (getObjectValueRaw val).1 parentId label comment) children objId
          (getNamePrefix name objId) (dict ++ [objId])
          (if (getObjectValueRaw val).2 then
            pend ++ [⟨objId, name, cls, parentId, label, comment⟩]
          else pend) with
      | ok r =>
        rw [hc] at hspec
        obtain ⟨hd, hnd, hfresh⟩ := hspec
        refine ⟨?_, ?_, ?_⟩
        · rw [hd]
          simp [visitedIds]
        · simp only [visitedIds, List.nodup_cons]
          refine ⟨fun hin => ?_, hnd⟩
          exact hfresh objId hin (by simp)
        · intro i hi
          simp only [visitedIds, List.mem_cons] at hi
          rcases hi with hi | hi
          · subst hi; exact hmem
          · intro hid
            exact hfresh i hi (by simp [hid])
      | error e =>
        rw [hc] at hspec
        obtain ⟨hmsg, hneg⟩ := hspec
        refine ⟨hmsg, fun h => hneg ⟨?_, ?_⟩⟩
        · have := h.1
          simp only [visitedIds, List.nodup_cons] at this
          exact this.2
        · intro i hi
          have hnotin : i ∉ dict := h.2 i (by simp [visitedIds, hi])
          have hne : i ≠ objId := by
            have := h.1
            simp only [visitedIds, List.nodup_cons] at this
            intro he
            exact this.1 (he ▸ hi)
          simp [hnotin, hne]

/-- Characterization of the child loop of `__updateTo` (see
`updateToAux_spec`): children without an id are inserted and visit
nothing. -/
theorem updateChilds_spec (cs : List (String × Obj)) : ∀ (db : Db)
    (pid : Option Nat) (npfx : ObjName) (dict : List (Option Nat))
    (pend : List PendingPtr),
    (match updateChilds db cs pid npfx dict pend with
     | .ok r => r.2.1 = dict ++ visitedChildIds cs ∧
         (visitedChildIds cs).Nodup ∧ ∀ i ∈ visitedChildIds cs, i ∉ dict
     | .error e => (∃ nm, e = circularMsg nm) ∧
         ¬ ((visitedChildIds cs).Nodup ∧
            ∀ i ∈ visitedChildIds cs, i ∉ dict)) := by
  match cs with
  | [] =>
    intro db pid npfx dict pend
    simp [updateChilds, visitedChildIds]
  | (k, c) :: rest =>
    intro db pid npfx dict pend
    rw [updateChilds]
    by_cases hio : c.objId = none
    · simp only [if_pos hio]
      have hspec := updateChilds_spec rest
        (insertObjW db c (npfx ++ [.key k]) pid (some npfx) pend).1 pid npfx
        dict (insertObjW db c (npfx ++ [.key k]) pid (some npfx) pend).2.2
      have hv : visitedChildIds ((k, c) :: rest) = visitedChildIds rest := by
        simp [visitedChildIds, hio]
      rw [hv]
      exact hspec
    · simp only [if_neg hio]
      have hv : visitedChildIds ((k, c) :: rest) =
          visitedIds c ++ visitedChildIds rest := by
        simp [visitedChildIds, hio]
      have hcspec := updateToAux_spec c db dict pend
      cases hc : updateToAux db c dict pend with
      | error e =>
        rw [hc] at hcspec
        obtain ⟨hmsg, hneg⟩ := hcspec
        rw [hv]
        refine ⟨hmsg, fun h => hneg ⟨?_, ?_⟩⟩
        · exact (List.nodup_append.mp h.1).1
        · exact fun i hi => h.2 i (List.mem_append_left _ hi)
      | ok rc =>
        rw [hc] at hcspec
        obtain ⟨hd1, hnd1, hfr1⟩ := hcspec
        dsimp only
        have hrspec := updateChilds_spec rest rc.1 pid npfx rc.2.1 rc.2.2
        cases hr : updateChilds rc.1 rest pid npfx rc.2.1 rc.2.2 with
        | ok rr =>
          rw [hr] at hrspec
          obtain ⟨hd2, hnd2, hfr2⟩ := hrspec
          rw [hv]
          rw [hd1] at hd2 hfr2
          refine ⟨?_, ?_, ?_⟩
          · rw [hd2]
            simp
          · rw [List.nodup_append]
            refine ⟨hnd1, hnd2, fun a ha hb => ?_⟩
            exact hfr2 a hb (List.mem_append_right _ ha)
          · intro i hi
            rcases List.mem_append.mp hi with hi | hi
            · exact hfr1 i hi
            · intro hin
              exact hfr2 i hi (List.mem_append_left _ hin)
        | error e =>
          rw [hr] at hrspec
          obtain ⟨hmsg, hneg⟩ := hrspec
          rw [hv]
          rw [hd1] at hneg
          refine ⟨hmsg, fun h => hneg ⟨?_, ?_⟩⟩
          · exact (List.nodup_append.mp h.1).2.1
          · intro i hi
            have h1 : i ∉ dict := h.2 i (List.mem_append_right _ hi)
            have h2 : i ∉ visitedIds c := fun hin =>
              (List.nodup_append.mp h.1).2.2 hin hi
            intro hin
            rcases List.mem_append.mp hin with hx | hx
            · exact h1 hx
            · exact h2 hx

end

/-- Witness for `flat_mapper_read_aliasing`: a one-object heap (the
template at address 0) read against two rows — the cloning path returns the
fresh addresses 1 and 2 and the iterating path always address 0. -/
theorem flat_mapper_read_aliasing_witness :
    let t : FlatItem := ⟨none, none, none, [("x", none)]⟩
    let st : FlatSt := ⟨[t], 0⟩
    let rows : List FlatRow := [⟨1, none, none, [("x", some "a")]⟩,
      ⟨2, none, none, [("x", some "b")]⟩]
    (listFromRows st rows).2.Nodup ∧
    (0 : Nat) ∉ (listFromRows st rows).2 ∧
    (∀ y ∈ iterYields st rows, y.2 = 0) ∧
    (∀ a, (flatSelectById st rows 2).2 = some a → a = 0) := by
  intro t st rows
  obtain ⟨⟨h1, h2, -⟩, h4, -, h6⟩ :=
    flat_mapper_read_aliasing st rows 2 (by decide)
  exact ⟨h1, h2, h4, h6⟩

/-- When the updateTo argument does not re-queue itself (`__getObjectValue`
on it appends nothing), the pending rewrite loop is a plain fold over the
queue, finished by any fuel at least the queue's length. -/
theorem rewritePending_terminates (o : Obj)
    (hnoreq : (getObjectValueRaw o.val).2 = false) :
    ∀ (pend : List PendingPtr) (fuel : Nat) (db : Db),
      pend.length ≤ fuel →
      rewritePendingLoop o fuel db pend =
        some (pend.foldl (fun db ptr => Db.updateObject db ptr.objId
          ptr.name ptr.cls (getObjectValueRaw o.val).1 ptr.parentId
          ptr.label ptr.comment) db) := by
  intro pend
  induction pend with
  | nil =>
    intro fuel db _
    cases fuel <;> rfl
  | cons p rest ih =>
    intro fuel db hle
    cases fuel with
    | zero => simp at hle
    | succ f =>
      rw [rewritePendingLoop, if_neg (by simp [hnoreq])]
      rw [List.foldl_cons]
      exact ih f _ (by simpa using hle)

/-- When the updateTo argument is a pointer with an unstored referent, every
iteration of the rewrite loop appends the argument back onto the queue, so a
non-empty queue never finishes — for any fuel. -/
theorem rewritePending_diverges (o : Obj)
    (hreq : (getObjectValueRaw o.val).2 = true) :
    ∀ (fuel : Nat) (db : Db) (p : PendingPtr) (rest : List PendingPtr),
      rewritePendingLoop o fuel db (p :: rest) = none := by
  intro fuel
  induction fuel with
  | zero => intro db p rest; rfl
  | succ f ih =>
    intro db p rest
    rw [rewritePendingLoop, if_pos hreq]
    cases rest with
    | nil => exact ih _ _ _
    | cons q qs => exact ih _ _ _

/-- C4: `SqliteMapper.updateTo` succeeds exactly when no object id is
reachable twice through the child-attribute walk (`visitedIds`), and every
failure is the structural `Circular reference` exception — equivalently, the
recursive walk in `__updateTo` never visits the same object id a second time
without failing.  (In the embedding the walk is a total function over the
attribute tree; a duplicated id is how a cyclic in-memory object graph
manifests on it.)  Scoped by: the updateTo argument itself is not a pointer
with an unstored referent — otherwise the pending rewrite loop re-queues the
argument each iteration and never terminates (`rewritePending_diverges`),
and `updateTo` returns neither success nor an error. -/
theorem cycle_rejection (db : Db) (o : Obj)
    (hnoreq : (getObjectValueRaw o.val).2 = false) :
    ((∃ fuel d, updateTo fuel db o = some (.ok d)) ↔
      (visitedIds o).Nodup) ∧
    (∀ fuel e, updateTo fuel db o = some (.error e) →
      ∃ nm, e = circularMsg nm) := by
  have hspec := updateToAux_spec o db [] []
  cases hx : updateToAux db o [] [] with
  | ok r =>
    rw [hx] at hspec
    refine ⟨⟨fun _ => hspec.2.1, fun _ => ?_⟩, ?_⟩
    · refine ⟨r.2.2.length, r.2.2.foldl (fun db ptr => Db.updateObject db
        ptr.objId ptr.name ptr.cls (getObjectValueRaw o.val).1 ptr.parentId
        ptr.label ptr.comment) r.1, ?_⟩
      rw [updateTo, hx]
      dsimp only
      rw [rewritePending_terminates o hnoreq r.2.2 r.2.2.length r.1
        (le_refl _)]
      rfl
    · intro fuel e he
      rw [updateTo, hx] at he
      dsimp only at he
      cases hr : rewritePendingLoop o fuel r.1 r.2.2 with
      | none => rw [hr] at he; simp at he
      | some d => rw [hr] at he; simp at he
  | error e0 =>
    rw [hx] at hspec
    refine ⟨⟨fun hd => ?_, fun hnd => ?_⟩, fun fuel e1 he1 => ?_⟩
    · obtain ⟨fuel, d, hd⟩ := hd
      rw [updateTo, hx] at hd
      dsimp only at hd
      simp at hd
    · exact absurd ⟨hnd, fun i _ => List.not_mem_nil i⟩ hspec.2
    · rw [updateTo, hx] at he1
      dsimp only at he1
      simp only [Option.some.injEq, Except.error.injEq] at he1
      subst he1
      exact hspec.1

/-- Witness for `cycle_rejection`: a stored scalar object (so the argument
never re-queues itself) whose child attribute carries its own id (id 1
reachable twice) makes `updateTo` fail with the `Circular reference` error,
and its visited-id list is indeed not duplicate-free. -/
theorem cycle_rejection_witness :
    let inner : Obj := .node (some 1) [.sid 1, .key "x"] (some 1) none none
      "Obj" (.scalar none) []
    let cyc : Obj := .node (some 1) [] none none none "Obj" (.scalar none)
      [("x", inner)]
    let db : Db := ⟨[⟨1, none, [], "Obj", none, none, none⟩], 5⟩
    (getObjectValueRaw cyc.val).2 = false ∧
    (¬ ∃ fuel d, updateTo fuel db cyc = some (.ok d)) ∧
    updateTo 0 db cyc =
      some (.error (circularMsg (nameToString [.sid 1, .key "x"]))) := by
  intro inner cyc db
  have herr : updateTo 0 db cyc =
      some (.error (circularMsg (nameToString [.sid 1, .key "x"]))) := by rfl
  refine ⟨by decide, fun h => ?_, herr⟩
  have hnd := (cycle_rejection db cyc (by decide)).1.mp h
  revert hnd
  decide

/-- C5 (code bug in `SqliteMapper.updateTo`, line 126): the pending-pointer
rewrite after the walk stores `self.__getObjectValue(obj)` — the value of
the object `updateTo` was called on — instead of the pending pointer's own
referent id.  Concretely: object 1 (scalar value `"rootval"`) has a pointer
child (stored row 2) whose referent has no id when first visited, plus the
referent itself as a new child (inserted as row 3 during the walk).  After
`updateTo` (one pending entry, so fuel 1 finishes the loop), row 2 holds the
text `"rootval"`, not the referent's id 3. -/
theorem pending_rewrite_uses_root_value :
    let ptrC : Obj := .node (some 2) [.sid 1, .key "p"] (some 1) none none
      "Pointer" (.ptr (some none)) []
    let refC : Obj := .node none [] none none none "Obj"
      (.scalar (some (.txt "refval"))) []
    let root : Obj := .node (some 1) [] none none none "Obj"
      (.scalar (some (.txt "rootval"))) [("p", ptrC), ("r", refC)]
    let db : Db := ⟨[⟨1, none, [], "Obj", some (.txt "old"), none, none⟩,
      ⟨2, some 1, [.sid 1, .key "p"], "Pointer", none, none, none⟩], 3⟩
    ∃ db', updateTo 1 db root = some (.ok db') ∧
      (db'.rows.find? (fun r => r.id == 2)).map (·.value) =
        some (some (.txt "rootval")) ∧
      (db'.rows.find? (fun r => r.id == 3)).map (·.id) = some 3 := by
  intro ptrC refC root db
  refine ⟨_, rfl, by decide, by decide⟩

/-!
### Auxiliary facts about the reconstruction tree operations
-/

theorem withChildren_withChildren (o : Obj) (a b : List (String × Obj)) :
    (o.withChildren a).withChildren b = o.withChildren b := by
  cases o; rfl

theorem withChildren_children (o : Obj) (a : List (String × Obj)) :
    (o.withChildren a).children = a := by
  cases o; rfl

theorem withChildren_self (o : Obj) : o.withChildren o.children = o := by
  cases o; rfl

theorem getChild_withChildren (o : Obj) (a : List (String × Obj))
    (k : String) : (o.withChildren a).getChild k =
      (a.find? (fun e => e.1 == k)).map (·.2) := by
  cases o; rfl

theorem replaceChild_find?_self (cs : List (String × Obj)) (k : String)
    (c : Obj) (h : (cs.find? (fun e => e.1 == k)).isSome) :
    (replaceChild cs k c).find? (fun e => e.1 == k) = some (k, c) := by
  induction cs with
  | nil => simp [List.find?_nil] at h
  | cons e rest ih =>
    by_cases he : (e.1 == k) = true
    · simp [replaceChild, he, List.find?_cons]
    · simp only [List.find?_cons, he] at h
      simp only [replaceChild, he, if_false, Bool.false_eq_true,
        List.find?_cons]
      exact ih h

theorem replaceChild_find?_ne (cs : List (String × Obj)) (k k' : String)
    (c : Obj) (h : k' ≠ k) :
    (replaceChild cs k c).find? (fun e => e.1 == k') =
      cs.find? (fun e => e.1 == k') := by
  induction cs with
  | nil => simp [replaceChild]
  | cons e rest ih =>
    by_cases he : (e.1 == k) = true
    · have he' : e.1 = k := by simpa using he
      have hk : (k == k') = false := by simp [Ne.symm h]
      have hk2 : (e.1 == k') = false := by simp [he', Ne.symm h]
      simp [replaceChild, he, List.find?_cons, hk, hk2]
    · by_cases he2 : (e.1 == k') = true
      · simp [replaceChild, he, List.find?_cons, he2]
      · simp [replaceChild, he, List.find?_cons, he2, ih]

theorem replaceChild_replaceChild (cs : List (String × Obj)) (k : String)
    (c c' : Obj) : replaceChild (replaceChild cs k c) k c' =
      replaceChild cs k c' := by
  induction cs with
  | nil => rfl
  | cons e rest ih =>
    by_cases he : (e.1 == k) = true
    · simp [replaceChild, he]
    · simp [replaceChild, he, ih]

theorem replaceChild_same (cs : List (String × Obj)) (k : String) (c : Obj)
    (h : (cs.find? (fun e => e.1 == k)).map (·.2) = some c) :
    replaceChild cs k c = cs := by
  induction cs with
  | nil => simp [List.find?_nil] at h
  | cons e rest ih =>
    by_cases he : (e.1 == k) = true
    · have he' : e.1 = k := by simpa using he
      simp only [List.find?_cons, he] at h
      have h2 : e.2 = c := by simpa using h
      rw [replaceChild, if_pos he, ← he', ← h2]
    · simp only [List.find?_cons, he] at h
      simp [replaceChild, he, ih h]

theorem getChild_setChild_self (o : Obj) (k : String) (c : Obj) :
    (o.setChild k c).getChild k = some c := by
  unfold Obj.setChild
  by_cases h : (o.children.find? (fun e => e.1 == k)).isSome
  · rw [if_pos h]
    rw [Obj.getChild, withChildren_children, replaceChild_find?_self _ _ _ h]
    rfl
  · rw [if_neg h]
    rw [Obj.getChild, withChildren_children, List.find?_append]
    rw [Option.not_isSome_iff_eq_none] at h
    simp [h, List.find?_cons]

theorem getChild_setChild_ne (o : Obj) (k k' : String) (c : Obj)
    (h : k' ≠ k) : (o.setChild k c).getChild k' = o.getChild k' := by
  unfold Obj.setChild
  by_cases hs : (o.children.find? (fun e => e.1 == k)).isSome
  · rw [if_pos hs, Obj.getChild, withChildren_children,
      replaceChild_find?_ne _ _ _ _ h]
    rfl
  · rw [if_neg hs]
    have hk : (k == k') = false := by simp [Ne.symm h]
    simp only [Obj.getChild, withChildren_children, List.find?_append,
      List.find?_cons, List.find?_nil, hk]
    cases hf : o.children.find? (fun e => e.1 == k') <;>
      simp only [hf, Option.or_none]

theorem replaceChild_append_fresh (cs : List (String × Obj)) (k : String)
    (c c' : Obj) (h : cs.find? (fun e => e.1 == k) = none) :
    replaceChild (cs ++ [(k, c)]) k c' = cs ++ [(k, c')] := by
  induction cs with
  | nil => simp [replaceChild]
  | cons e rest ih =>
    simp only [List.find?_cons] at h
    by_cases he : (e.1 == k) = true
    · simp [he] at h
    · simp only [he] at h
      simp [replaceChild, he, ih h]

theorem setChild_setChild (o : Obj) (k : String) (c c' : Obj) :
    (o.setChild k c).setChild k c' = o.setChild k c' := by
  unfold Obj.setChild
  by_cases hs : (o.children.find? (fun e => e.1 == k)).isSome
  · rw [if_pos hs]
    rw [withChildren_children, replaceChild_find?_self _ _ _ hs]
    simp only [Option.isSome_some, if_pos trivial, if_pos hs,
      withChildren_withChildren, replaceChild_replaceChild]
  · rw [if_neg hs]
    rw [Option.not_isSome_iff_eq_none] at hs
    have h2 : ((o.children ++ [(k, c)]).find?
        (fun e => e.1 == k)).isSome = true := by
      rw [List.find?_append, hs]
      simp [List.find?_cons]
    rw [withChildren_children, if_pos h2, if_neg (by simp [hs]),
      withChildren_withChildren]
    congr 1
    exact replaceChild_append_fresh o.children k c c' hs

theorem setChild_same (o : Obj) (k : String) (c : Obj)
    (h : o.getChild k = some c) : o.setChild k c = o := by
  unfold Obj.setChild
  rw [Obj.getChild] at h
  have hs : (o.children.find? (fun e => e.1 == k)).isSome := by
    cases hf : o.children.find? (fun e => e.1 == k) <;> simp [hf] at h ⊢
  rw [if_pos hs, replaceChild_same _ _ _ h, withChildren_self]

theorem setChild_none (o : Obj) (k : String) (c : Obj)
    (h : o.getChild k = none) :
    o.setChild k c = o.withChildren (o.children ++ [(k, c)]) := by
  unfold Obj.setChild
  rw [Obj.getChild] at h
  have hs : ¬ (o.children.find? (fun e => e.1 == k)).isSome := by
    cases hf : o.children.find? (fun e => e.1 == k) <;> simp [hf] at h ⊢
  rw [if_neg hs]

theorem getAt_setAt (o : Obj) (p : List String) (x y : Obj)
    (h : o.getAt p = some x) : (o.setAt p y).getAt p = some y := by
  induction p generalizing o with
  | nil => rfl
  | cons k ks ih =>
    cases hc : o.getChild k with
    | none =>
      simp only [Obj.getAt, hc] at h
      exact Option.noConfusion h
    | some sub =>
      simp only [Obj.getAt, hc] at h
      simp only [Obj.setAt, hc, Obj.getAt, getChild_setChild_self]
      exact ih sub h

theorem setAt_setAt (o : Obj) (p : List String) (x y z : Obj)
    (h : o.getAt p = some x) : (o.setAt p y).setAt p z = o.setAt p z := by
  induction p generalizing o with
  | nil => rfl
  | cons k ks ih =>
    cases hc : o.getChild k with
    | none =>
      simp only [Obj.getAt, hc] at h
      exact Option.noConfusion h
    | some sub =>
      simp only [Obj.getAt, hc] at h
      simp only [Obj.setAt, hc, getChild_setChild_self]
      rw [ih sub h, setChild_setChild]

theorem setAt_append (o : Obj) (p q : List String) (x y : Obj)
    (h : o.getAt p = some x) :
    o.setAt (p ++ q) y = o.setAt p (x.setAt q y) := by
  induction p generalizing o with
  | nil =>
    simp only [Obj.getAt] at h
    cases h
    rfl
  | cons k ks ih =>
    cases hc : o.getChild k with
    | none =>
      simp only [Obj.getAt, hc] at h
      exact Option.noConfusion h
    | some sub =>
      simp only [Obj.getAt, hc] at h
      have e1 : o.setAt (k :: (ks ++ q)) y =
          o.setChild k (sub.setAt (ks ++ q) y) := by
        simp only [Obj.setAt, hc]
      have e2 : o.setAt (k :: ks) (x.setAt q y) =
          o.setChild k (sub.setAt ks (x.setAt q y)) := by
        simp only [Obj.setAt, hc]
      calc o.setAt ((k :: ks) ++ q) y = o.setAt (k :: (ks ++ q)) y := by
            rw [List.cons_append]
        _ = o.setChild k (sub.setAt (ks ++ q) y) := e1
        _ = o.setChild k (sub.setAt ks (x.setAt q y)) := by rw [ih sub h]
        _ = o.setAt (k :: ks) (x.setAt q y) := e2.symm

theorem setAt_same (o : Obj) (p : List String) (x : Obj)
    (h : o.getAt p = some x) : o.setAt p x = o := by
  induction p generalizing o with
  | nil =>
    simp only [Obj.getAt] at h
    cases h
    rfl
  | cons k ks ih =>
    cases hc : o.getChild k with
    | none =>
      simp only [Obj.getAt, hc] at h
      exact Option.noConfusion h
    | some sub =>
      simp only [Obj.getAt, hc] at h
      simp only [Obj.setAt, hc]
      rw [ih sub h, setChild_same o k sub hc]

theorem getAt_single (o : Obj) (k : String) : o.getAt [k] = o.getChild k := by
  cases hc : o.getChild k <;> simp [Obj.getAt, hc]

theorem setAt_single (o : Obj) (k : String) (x y : Obj)
    (h : o.getChild k = some x) : o.setAt [k] y = o.setChild k y := by
  simp only [Obj.setAt, h]

theorem getAt_append_get (o : Obj) (p q : List String) :
    o.getAt (p ++ q) = (o.getAt p).bind (fun x => x.getAt q) := by
  induction p generalizing o with
  | nil => rfl
  | cons k ks ih =>
    cases hc : o.getChild k with
    | none => simp [Obj.getAt, hc]
    | some sub => simp [Obj.getAt, hc, ih]

/-- `List.lookup` skips a block of entries none of which carries the key. -/
theorem lookup_append_skip (es old : List (Nat × List String)) (pid : Nat)
    (h : ∀ e ∈ es, e.1 ≠ pid) :
    (es ++ old).lookup pid = old.lookup pid := by
  induction es with
  | nil => rfl
  | cons e rest ih =>
    have hne : (pid == e.1) = false := by
      have := h e (by simp)
      simp [Ne.symm this]
    rw [List.cons_append, List.lookup]
    simp only [hne]
    exact ih (fun x hx => h x (by simp [hx]))

/-- Inserting a row with id below the head of an ascending list just
prepends it. -/
theorem insertById_le (r : Row) (l : List Row)
    (h : ∀ x ∈ l, r.id ≤ x.id) : insertById r l = r :: l := by
  cases l with
  | nil => rfl
  | cons x xs =>
    rw [insertById, if_pos (h x (by simp))]

/-- `ORDER BY id` is a no-op on a list already in ascending id order. -/
theorem sortRowsById_sorted (l : List Row)
    (h : l.Pairwise (fun a b => a.id ≤ b.id)) : sortRowsById l = l := by
  induction l with
  | nil => rfl
  | cons x xs ih =>
    rw [List.pairwise_cons] at h
    rw [sortRowsById, ih h.2, insertById_le x xs h.1]

/-- Projection computation rules for database and row literals. -/
theorem db_mk_rows (rs : List Row) (n : Nat) : (⟨rs, n⟩ : Db).rows = rs :=
  rfl

theorem db_mk_nextId (rs : List Row) (n : Nat) : (⟨rs, n⟩ : Db).nextId = n :=
  rfl

theorem row_mk_id (a : Nat) (b : Option Nat) (c : ObjName) (d : String)
    (e : Option VCell) (f g : Option String) :
    (⟨a, b, c, d, e, f, g⟩ : Row).id = a :=
  rfl

theorem row_mk_name (a : Nat) (b : Option Nat) (c : ObjName) (d : String)
    (e : Option VCell) (f g : Option String) :
    (⟨a, b, c, d, e, f, g⟩ : Row).name = c :=
  rfl

mutual

/-- Row bookkeeping of `__insert` under a name prefix: it only appends rows;
ids are fresh (taken from the `AUTOINCREMENT` counter, in ascending
insertion order) and every appended row's name strictly extends the name
prefix the call was given. -/
theorem insertObjW_rows (c : Obj) : ∀ (db : Db) (asName : ObjName)
    (asParent : Option Nat) (pfxP : ObjName) (pend : List PendingPtr),
    pfxP <+: asName → pfxP.length < asName.length →
    ∃ t, (insertObjW db c asName asParent (some pfxP) pend).1.rows =
        db.rows ++ t ∧
      db.nextId < (insertObjW db c asName asParent (some pfxP) pend).1.nextId ∧
      (∀ row ∈ t, db.nextId ≤ row.id ∧
        row.id < (insertObjW db c asName asParent (some pfxP) pend).1.nextId) ∧
      t.Pairwise (fun a b => a.id < b.id) ∧
      (∀ row ∈ t, pfxP <+: row.name ∧ pfxP.length < row.name.length) := by
  match c with
  | .node i n p l cm cls v cs =>
    intro db asName asParent pfxP pend hpfx hlen
    obtain ⟨t2, ht2, hn2, hb2, hp2, hx2⟩ := insertChilds_rows cs
      ⟨db.rows ++ [⟨db.nextId, asParent, asName, cls,
        (getObjectValueRaw v).1, l, cm⟩], db.nextId + 1⟩
      db.nextId (pfxP ++ [strId (some db.nextId)])
      (if (getObjectValueRaw v).2 then
        pend ++ [⟨some db.nextId, asName, cls, asParent, l, cm⟩] else pend)
    simp only [db_mk_rows, db_mk_nextId, row_mk_id, row_mk_name]
      at ht2 hn2 hb2 hp2 hx2
    refine ⟨⟨db.nextId, asParent, asName, cls,
      (getObjectValueRaw v).1, l, cm⟩ :: t2, ?_, ?_, ?_, ?_, ?_⟩
    · simp only [insertObjW, Db.insertObject]
      rw [ht2]
      simp
    · simp only [insertObjW, Db.insertObject, db_mk_nextId]
      omega
    · intro row hrow
      simp only [insertObjW, Db.insertObject, db_mk_nextId]
      rcases List.mem_cons.mp hrow with hrow | hrow
      · subst hrow
        simp only [row_mk_id]
        omega
      · have := hb2 row hrow
        omega
    · rw [List.pairwise_cons]
      refine ⟨fun b hb => ?_, hp2⟩
      have := hb2 b hb
      simp only [row_mk_id]
      omega
    · intro row hrow
      rcases List.mem_cons.mp hrow with hrow | hrow
      · subst hrow
        exact ⟨hpfx, hlen⟩
      · have hx := hx2 row hrow
        have hpre : pfxP <+: pfxP ++ [strId (some db.nextId)] :=
          List.prefix_append _ _
        refine ⟨hpre.trans hx.1, ?_⟩
        have := hx.2
        simp only [List.length_append, List.length_cons,
          List.length_nil] at this
        omega

/-- Row bookkeeping of the `insertChilds` loop (see `insertObjW_rows`). -/
theorem insertChilds_rows (cs : List (String × Obj)) : ∀ (db : Db)
    (pid : Nat) (pfxP : ObjName) (pend : List PendingPtr),
    ∃ t, (insertChilds db cs pid pfxP pend).1.rows = db.rows ++ t ∧
      db.nextId ≤ (insertChilds db cs pid pfxP pend).1.nextId ∧
      (∀ row ∈ t, db.nextId ≤ row.id ∧
        row.id < (insertChilds db cs pid pfxP pend).1.nextId) ∧
      t.Pairwise (fun a b => a.id < b.id) ∧
      (∀ row ∈ t, pfxP <+: row.name ∧ pfxP.length < row.name.length) := by
  match cs with
  | [] =>
    intro db pid pfxP pend
    exact ⟨[], by simp [insertChilds], by simp [insertChilds],
      by simp, by simp, by simp⟩
  | (k, c) :: rest =>
    intro db pid pfxP pend
    obtain ⟨t1, ht1, hn1, hb1, hp1, hx1⟩ := insertObjW_rows c db
      (pfxP ++ [.key k]) (some pid) pfxP pend (List.prefix_append _ _)
      (by simp)
    obtain ⟨t2, ht2, hn2, hb2, hp2, hx2⟩ := insertChilds_rows rest
      (insertObjW db c (pfxP ++ [.key k]) (some pid) (some pfxP) pend).1 pid
      pfxP
      (insertObjW db c (pfxP ++ [.key k]) (some pid) (some pfxP) pend).2.2
    refine ⟨t1 ++ t2, ?_, ?_, ?_, ?_, ?_⟩
    · simp only [insertChilds]
      rw [ht2, ht1, List.append_assoc]
    · simp only [insertChilds]
      omega
    · intro row hrow
      simp only [insertChilds]
      rcases List.mem_append.mp hrow with hrow | hrow
      · have := hb1 row hrow
        omega
      · have := hb2 row hrow
        omega
    · rw [List.pairwise_append]
      refine ⟨hp1, hp2, fun a ha b hb => ?_⟩
      have h1 := hb1 a ha
      have h2 := hb2 b hb
      omega
    · intro row hrow
      rcases List.mem_append.mp hrow with hrow | hrow
      · exact hx1 row hrow
      · exact hx2 row hrow

end

/-- Definitional unfolding of `__insert` on a node with a name prefix. -/
theorem insertObjW_unfold (db : Db) (i : Option Nat) (n : ObjName)
    (pp : Option Nat) (l cm : Option String) (cls : String) (v : OVal)
    (cs : List (String × Obj)) (asName : ObjName) (asParent : Option Nat)
    (pfxP : ObjName) (pend : List PendingPtr) :
    insertObjW db (.node i n pp l cm cls v cs) asName asParent (some pfxP)
      pend =
    ((insertChilds ⟨db.rows ++ [⟨db.nextId, asParent, asName, cls,
        (getObjectValueRaw v).1, l, cm⟩], db.nextId + 1⟩ cs db.nextId
        (pfxP ++ [strId (some db.nextId)])
        (if (getObjectValueRaw v).2 then
          pend ++ [⟨some db.nextId, asName, cls, asParent, l, cm⟩]
        else pend)).1,
     .node (some db.nextId) asName asParent l cm cls v
       (insertChilds ⟨db.rows ++ [⟨db.nextId, asParent, asName, cls,
          (getObjectValueRaw v).1, l, cm⟩], db.nextId + 1⟩ cs db.nextId
          (pfxP ++ [strId (some db.nextId)])
          (if (getObjectValueRaw v).2 then
            pend ++ [⟨some db.nextId, asName, cls, asParent, l, cm⟩]
          else pend)).2.1,
     (insertChilds ⟨db.rows ++ [⟨db.nextId, asParent, asName, cls,
        (getObjectValueRaw v).1, l, cm⟩], db.nextId + 1⟩ cs db.nextId
        (pfxP ++ [strId (some db.nextId)])
        (if (getObjectValueRaw v).2 then
          pend ++ [⟨some db.nextId, asName, cls, asParent, l, cm⟩]
        else pend)).2.2) :=
  rfl

/-- Definitional unfolding of the `insertChilds` loop on a cons cell. -/
theorem insertChilds_unfold (db : Db) (k : String) (c : Obj)
    (rest : List (String × Obj)) (pid : Nat) (pfx : ObjName)
    (pend : List PendingPtr) :
    insertChilds db ((k, c) :: rest) pid pfx pend =
    ((insertChilds (insertObjW db c (pfx ++ [.key k]) (some pid) (some pfx)
        pend).1 rest pid pfx (insertObjW db c (pfx ++ [.key k]) (some pid)
        (some pfx) pend).2.2).1,
     (k, (insertObjW db c (pfx ++ [.key k]) (some pid) (some pfx)
        pend).2.1) ::
       (insertChilds (insertObjW db c (pfx ++ [.key k]) (some pid)
          (some pfx) pend).1 rest pid pfx (insertObjW db c
          (pfx ++ [.key k]) (some pid) (some pfx) pend).2.2).2.1,
     (insertChilds (insertObjW db c (pfx ++ [.key k]) (some pid) (some pfx)
        pend).1 rest pid pfx (insertObjW db c (pfx ++ [.key k]) (some pid)
        (some pfx) pend).2.2).2.2) :=
  rfl

mutual

/-- One inserted subtree re-attaches: processing, from a reconstruction
state that already holds the parent (id `pid`, at path `p`, lacking the
attribute `k`), the rows emitted by inserting subtree `c` as attribute `k`
of that parent reaches exactly the state where the parent has gained a child
`k` equivalent to `c`, and the id dictionary has gained the fresh ids. -/
theorem attach_obj (c : Obj) : ∀ (sel : Db → Nat → Except String (Option Obj))
    (dbr : Db) (db : Db) (q : ObjName) (pid : Nat)
    (k : String) (pend : List PendingPtr) (st : FillSt) (p : List String)
    (P : Obj),
    wfObj c = true →
    pid < db.nextId →
    st.objDict.lookup pid = some p →
    (∀ e ∈ st.objDict, e.1 < db.nextId) →
    st.root.getAt p = some P →
    P.getChild k = none →
    (∀ rid ∈ ptrTargets c, ∃ ob, sel dbr rid = .ok (some ob) ∧
      ob.objId = some rid) →
    ∃ st' sub ents,
      List.foldlM (attachRow sel dbr) st
        ((insertObjW db c ((q ++ [.sid pid]) ++ [.key k]) (some pid)
          (some (q ++ [.sid pid])) pend).1.rows.drop db.rows.length) =
        .ok st' ∧
      st'.root = st.root.setAt p (P.setChild k sub) ∧
      st'.objDict = ents ++ st.objDict ∧
      (∀ e ∈ ents, db.nextId ≤ e.1 ∧
        e.1 < (insertObjW db c ((q ++ [.sid pid]) ++ [.key k]) (some pid)
          (some (q ++ [.sid pid])) pend).1.nextId) ∧
      equivObj c sub = true := by
  match c with
  | .node i n pp l cm cls v cs =>
    intro sel dbr db q pid k pend st p P hwf hpid hdict0 hdlt hroot0 hnone0
      hsel
    -- unpack well-formedness
    simp only [wfObj, Bool.and_eq_true] at hwf
    obtain ⟨⟨hwfv, hwfnd⟩, hwfcs⟩ := hwf
    -- the inserted row of this node
    set row0 : Row := ⟨db.nextId, some pid, (q ++ [.sid pid]) ++ [.key k],
      cls, (getObjectValueRaw v).1, l, cm⟩ with hrow0
    set db1 : Db := ⟨db.rows ++ [row0], db.nextId + 1⟩ with hdb1
    set pend1 : List PendingPtr := (if (getObjectValueRaw v).2 then
      pend ++ [⟨some db.nextId, (q ++ [.sid pid]) ++ [.key k],
        cls, some pid, l, cm⟩] else pend) with hpend1
    -- the hydrated leaf this row produces
    have hfill : ∃ val0,
        fillObjectWithRow sel dbr (buildObject cls) row0 =
          .ok (Obj.node (some db.nextId) row0.name (some pid)
            (getStrValue l) (getStrValue cm) cls val0 []) ∧
        valEquiv v val0 = true := by
      cases v with
      | scalar sv =>
        have hcls : (cls == "Pointer") = false := by
          simpa using hwfv
        refine ⟨.scalar sv, ?_, by simp [valEquiv]⟩
        rw [buildObject, if_neg (by simp [hcls])]
        rfl
      | ptr ref =>
        simp only [Bool.and_eq_true] at hwfv
        have hcls : (cls == "Pointer") = true := hwfv.1
        cases ref with
        | none =>
          rw [buildObject, if_pos hcls]
          exact ⟨.ptr none, rfl, rfl⟩
        | some rr =>
          cases rr with
          | none =>
            have := hwfv.2
            simp at this
          | some refid =>
            obtain ⟨ob, hob, hoid⟩ := hsel refid (by
              simp only [ptrTargets]
              exact List.mem_append_left _ (by simp))
            refine ⟨.ptr (some (some refid)), ?_, by simp [valEquiv]⟩
            rw [buildObject, if_pos hcls]
            have hstep : fillObjectWithRow sel dbr
                (Obj.node none [] none none none cls (OVal.ptr none) [])
                row0 =
                (match sel dbr refid with
                 | .error e => .error e
                 | .ok none => .ok (.node (some row0.id) row0.name
                     row0.parentId (getStrValue row0.label)
                     (getStrValue row0.comment) cls (.ptr none) [])
                 | .ok (some rf) => .ok (.node (some row0.id) row0.name
                     row0.parentId (getStrValue row0.label)
                     (getStrValue row0.comment) cls
                     (.ptr (some rf.objId)) [])) := rfl
            rw [hstep, hob]
            dsimp only
            rw [hoid]
    obtain ⟨val0, hfillEq, hvaleq⟩ := hfill
    set c0 : Obj := Obj.node (some db.nextId) row0.name (some pid)
      (getStrValue l) (getStrValue cm) cls val0 [] with hc0
    -- attaching this node's row
    have hlen : row0.name.length = q.length + 2 := by
      rw [hrow0, row_mk_name]
      simp
    have hif : 2 ≤ row0.name.length := by omega
    have hlast : row0.name.getLast? = some (.key k) := by
      rw [hrow0, row_mk_name]
      exact List.getLast?_concat _
    have hpc : row0.name[row0.name.length - 2]? = some (.sid pid) := by
      rw [hlen, hrow0, row_mk_name]
      have h2 : q.length + 2 - 2 = q.length := by omega
      rw [h2]
      rw [List.getElem?_append_left (by simp)]
      exact List.getElem?_concat_length _ _
    have hatt : attachRow sel dbr st row0 =
        .ok ⟨st.root.setAt p (P.setChild k c0),
          (db.nextId, p ++ [k]) :: st.objDict⟩ := by
      rw [attachRow, if_pos hif, hlast, hpc]
      dsimp only
      rw [hdict0]
      dsimp only
      rw [hroot0]
      dsimp only
      have hcomp : compToStr (NameComp.key k) = k := rfl
      rw [hcomp]
      rw [hnone0, Option.getD_none]
      have hclsn : row0.classname = cls := rfl
      first
      | rw [hclsn, hfillEq]
      | rw [hfillEq]
    -- rows emitted by the children block
    obtain ⟨t2, ht2, hn2, hb2, hp2, hx2⟩ := insertChilds_rows cs db1
      db.nextId ((q ++ [.sid pid]) ++ [.sid db.nextId]) pend1
    -- attach the children block inside the fresh leaf
    have hdlt1 : ∀ e ∈ ((db.nextId, p ++ [k]) :: st.objDict),
        e.1 < db1.nextId := by
      intro e he
      rcases List.mem_cons.mp he with he | he
      · subst he
        exact Nat.lt_succ_self _
      · exact Nat.lt_succ_of_lt (hdlt e he)
    obtain ⟨st2, kids, ents2, hfold2, hroot2, hdict2, hbnd2, heqv2⟩ :=
      attach_childs cs sel dbr db1 (q ++ [.sid pid]) db.nextId pend1
        ⟨st.root.setAt p (P.setChild k c0),
          (db.nextId, p ++ [k]) :: st.objDict⟩ (p ++ [k]) c0
        hwfcs (of_decide_eq_true hwfnd)
        (Nat.lt_succ_self _)
        (by simp [List.lookup])
        hdlt1
        (by
          have h1 : (st.root.setAt p (P.setChild k c0)).getAt p =
              some (P.setChild k c0) := getAt_setAt _ _ _ _ hroot0
          show Obj.getAt _ (p ++ [k]) = some c0
          rw [getAt_append_get, h1]
          show Obj.getAt (P.setChild k c0) [k] = some c0
          rw [getAt_single]
          exact getChild_setChild_self _ _ _)
        (by
          intro e _
          rw [hc0]
          rfl)
        (fun rid hrid => hsel rid (by
          simp only [ptrTargets]
          exact List.mem_append_right _ hrid))
    have hstr : strId (some db.nextId) = NameComp.sid db.nextId := rfl
    refine ⟨st2, c0.withChildren kids, ents2 ++ [(db.nextId, p ++ [k])],
      ?_, ?_, ?_, ?_, ?_⟩
    · -- the fold over the whole emitted block
      show List.foldlM (attachRow sel dbr) st ((insertChilds db1 cs db.nextId
        ((q ++ [.sid pid]) ++ [.sid db.nextId]) pend1).1.rows.drop
          db.rows.length) = .ok st2
      have hrows : (insertChilds db1 cs db.nextId
          ((q ++ [.sid pid]) ++ [NameComp.sid db.nextId]) pend1).1.rows =
          db.rows ++ (row0 :: t2) := by
        rw [ht2, hdb1, db_mk_rows]
        simp
      rw [hrows, List.drop_left]
      rw [List.foldlM_cons, hatt]
      show List.foldlM (attachRow sel dbr) _ t2 = _
      have ht2d : t2 = (insertChilds db1 cs db.nextId
          ((q ++ [.sid pid]) ++ [NameComp.sid db.nextId]) pend1).1.rows.drop
            db1.rows.length := by
        rw [ht2, List.drop_left]
      rw [ht2d]
      exact hfold2
    · have hroot2d : st2.root = (st.root.setAt p (P.setChild k c0)).setAt
          (p ++ [k]) (c0.withChildren (c0.children ++ kids)) := hroot2
      rw [hroot2d]
      have h1 : (st.root.setAt p (P.setChild k c0)).getAt p =
          some (P.setChild k c0) := getAt_setAt _ _ _ _ hroot0
      rw [setAt_append _ _ _ _ _ h1]
      rw [setAt_single _ _ c0 _ (getChild_setChild_self _ _ _)]
      rw [setChild_setChild]
      rw [setAt_setAt _ _ _ _ _ hroot0]
      have hcw : c0.withChildren (c0.children ++ kids) =
          c0.withChildren kids := by
        rw [hc0]
        rfl
      rw [hcw]
    · have hdict2d : st2.objDict =
          ents2 ++ ((db.nextId, p ++ [k]) :: st.objDict) := hdict2
      rw [hdict2d]
      simp
    · intro e he
      rcases List.mem_append.mp he with he | he
      · have hb2' : db.nextId + 1 ≤ e.1 := (hbnd2 e he).1
        exact ⟨by omega, (hbnd2 e he).2⟩
      · simp only [List.mem_singleton] at he
        subst he
        refine ⟨le_refl _, ?_⟩
        have hn2' : db.nextId + 1 ≤ (insertChilds db1 cs db.nextId
            ((q ++ [.sid pid]) ++ [.sid db.nextId]) pend1).1.nextId := hn2
        show db.nextId < (insertChilds db1 cs db.nextId
          ((q ++ [.sid pid]) ++ [.sid db.nextId]) pend1).1.nextId
        omega
    · have hwc : c0.withChildren kids = Obj.node (some db.nextId)
          row0.name (some pid) (getStrValue l) (getStrValue cm) cls val0
          kids := by
        rw [hc0]
        rfl
      rw [hwc]
      simp only [equivObj, Bool.and_eq_true]
      exact ⟨hvaleq, heqv2⟩

/-- The inserted child blocks of one parent re-attach in sequence (see
`attach_obj`): the parent gains one child per attribute, in order, each
equivalent to the inserted one. -/
theorem attach_childs (cs : List (String × Obj)) :
    ∀ (sel : Db → Nat → Except String (Option Obj)) (dbr : Db) (db : Db)
    (q : ObjName) (pid : Nat) (pend : List PendingPtr) (st : FillSt)
    (p : List String) (P : Obj),
    wfChildren cs = true →
    (cs.map (·.1)).Nodup →
    pid < db.nextId →
    st.objDict.lookup pid = some p →
    (∀ e ∈ st.objDict, e.1 < db.nextId) →
    st.root.getAt p = some P →
    (∀ e ∈ cs, P.getChild e.1 = none) →
    (∀ rid ∈ ptrTargetsChildren cs, ∃ ob, sel dbr rid = .ok (some ob) ∧
      ob.objId = some rid) →
    ∃ st' kids ents,
      List.foldlM (attachRow sel dbr) st
        ((insertChilds db cs pid (q ++ [.sid pid]) pend).1.rows.drop
          db.rows.length) = .ok st' ∧
      st'.root = st.root.setAt p (P.withChildren (P.children ++ kids)) ∧
      st'.objDict = ents ++ st.objDict ∧
      (∀ e ∈ ents, db.nextId ≤ e.1 ∧
        e.1 < (insertChilds db cs pid (q ++ [.sid pid]) pend).1.nextId) ∧
      equivChildren cs kids = true := by
  match cs with
  | [] =>
    intro sel dbr db q pid pend st p P _ _ _ _ _ hroot0 _ _
    refine ⟨st, [], [], ?_, ?_, rfl, by simp, rfl⟩
    · simp only [insertChilds, List.drop_length, List.foldlM_nil]
      rfl
    · rw [List.append_nil, withChildren_self, setAt_same _ _ _ hroot0]
  | (k, c) :: rest =>
    intro sel dbr db q pid pend st p P hwf hnd hpid hdict0 hdlt hroot0
      habsent hsel
    simp only [wfChildren, Bool.and_eq_true] at hwf
    obtain ⟨⟨-, hwfc⟩, hwfrest⟩ := hwf
    simp only [List.map_cons, List.nodup_cons] at hnd
    obtain ⟨hknotin, hndrest⟩ := hnd
    -- attach the head child's block
    obtain ⟨st1, sub, ents1, hfold1, hroot1, hdict1, hbnd1, heqv1⟩ :=
      attach_obj c sel dbr db q pid k pend st p P hwfc hpid hdict0 hdlt
        hroot0 (habsent (k, c) (by simp))
        (fun rid hrid => hsel rid (by
          simp only [ptrTargetsChildren]
          exact List.mem_append_left _ hrid))
    -- row bookkeeping of the two blocks
    obtain ⟨t1, ht1, hn1, hb1, -, -⟩ := insertObjW_rows c db
      ((q ++ [.sid pid]) ++ [.key k]) (some pid) (q ++ [.sid pid]) pend
      (List.prefix_append _ _) (by simp)
    obtain ⟨t2, ht2, hn2, hb2, -, -⟩ := insertChilds_rows rest
      (insertObjW db c ((q ++ [.sid pid]) ++ [.key k]) (some pid)
        (some (q ++ [.sid pid])) pend).1 pid (q ++ [.sid pid])
      (insertObjW db c ((q ++ [.sid pid]) ++ [.key k]) (some pid)
        (some (q ++ [.sid pid])) pend).2.2
    -- attach the remaining siblings
    obtain ⟨st2, kids2, ents2, hfold2, hroot2, hdict2, hbnd2, heqv2⟩ :=
      attach_childs rest sel dbr
        (insertObjW db c ((q ++ [.sid pid]) ++ [.key k]) (some pid)
          (some (q ++ [.sid pid])) pend).1 q pid
        (insertObjW db c ((q ++ [.sid pid]) ++ [.key k]) (some pid)
          (some (q ++ [.sid pid])) pend).2.2
        st1 p (P.setChild k sub)
        hwfrest hndrest (by omega)
        (by
          rw [hdict1]
          rw [lookup_append_skip _ _ _ (fun e he => by
            have := hbnd1 e he
            omega)]
          exact hdict0)
        (by
          intro e he
          rw [hdict1] at he
          rcases List.mem_append.mp he with he | he
          · exact (hbnd1 e he).2
          · have := hdlt e he
            omega)
        (by
          rw [hroot1]
          exact getAt_setAt _ _ _ _ hroot0)
        (by
          intro e he
          have hne : e.1 ≠ k := by
            intro hek
            exact hknotin (hek ▸ List.mem_map_of_mem (·.1) he)
          rw [getChild_setChild_ne _ _ _ _ hne]
          exact habsent e (by simp [he]))
        (fun rid hrid => hsel rid (by
          simp only [ptrTargetsChildren]
          exact List.mem_append_right _ hrid))
    refine ⟨st2, (k, sub) :: kids2, ents2 ++ ents1, ?_, ?_, ?_, ?_, ?_⟩
    · show List.foldlM (attachRow sel dbr) st
        ((insertChilds (insertObjW db c ((q ++ [.sid pid]) ++ [.key k])
          (some pid) (some (q ++ [.sid pid])) pend).1 rest pid
          (q ++ [.sid pid]) (insertObjW db c ((q ++ [.sid pid]) ++ [.key k])
            (some pid) (some (q ++ [.sid pid])) pend).2.2).1.rows.drop
          db.rows.length) = .ok st2
      have hrows : (insertChilds (insertObjW db c
          ((q ++ [.sid pid]) ++ [.key k]) (some pid)
          (some (q ++ [.sid pid])) pend).1 rest pid (q ++ [.sid pid])
          (insertObjW db c ((q ++ [.sid pid]) ++ [.key k]) (some pid)
            (some (q ++ [.sid pid])) pend).2.2).1.rows =
          db.rows ++ (t1 ++ t2) := by
        rw [ht2, ht1, List.append_assoc]
      rw [hrows, List.drop_left, List.foldlM_append]
      have ht1d : t1 = (insertObjW db c ((q ++ [.sid pid]) ++ [.key k])
          (some pid) (some (q ++ [.sid pid])) pend).1.rows.drop
            db.rows.length := by
        rw [ht1, List.drop_left]
      rw [ht1d]
      rw [hfold1]
      have ht2d : t2 = (insertChilds (insertObjW db c
          ((q ++ [.sid pid]) ++ [.key k]) (some pid)
          (some (q ++ [.sid pid])) pend).1 rest pid (q ++ [.sid pid])
          (insertObjW db c ((q ++ [.sid pid]) ++ [.key k]) (some pid)
            (some (q ++ [.sid pid])) pend).2.2).1.rows.drop
            (insertObjW db c ((q ++ [.sid pid]) ++ [.key k]) (some pid)
              (some (q ++ [.sid pid])) pend).1.rows.length := by
        rw [ht2, List.drop_left]
      rw [ht2d]
      exact hfold2
    · rw [hroot2, hroot1]
      rw [setAt_setAt _ _ _ _ _ hroot0]
      rw [setChild_none _ _ _ (habsent (k, c) (by simp))]
      rw [withChildren_children, withChildren_withChildren]
      rw [List.append_assoc]
      rfl
    · rw [hdict2, hdict1, List.append_assoc]
    · intro e he
      rcases List.mem_append.mp he with he | he
      · have hb1 := (hbnd2 e he).1
        have hb2 := (hbnd2 e he).2
        exact ⟨by omega, hb2⟩
      · have hb := hbnd1 e he
        have hb3 : e.1 < (insertChilds (insertObjW db c
            ((q ++ [.sid pid]) ++ [.key k]) (some pid)
            (some (q ++ [.sid pid])) pend).1 rest pid (q ++ [.sid pid])
            (insertObjW db c ((q ++ [.sid pid]) ++ [.key k]) (some pid)
              (some (q ++ [.sid pid])) pend).2.2).1.nextId := by
          have := hb.2
          omega
        exact ⟨hb.1, hb3⟩
    · simp only [equivChildren, Bool.and_eq_true]
      exact ⟨⟨by simp, heqv1⟩, heqv2⟩

end


/-- Filling a freshly built object from a row whose value cell was produced
by `__getObjectValue` on a well-formed value slot succeeds and yields a
childless node carrying an equivalent value. -/
theorem fill_build (sel : Db → Nat → Except String (Option Obj)) (dbr : Db)
    (cls : String) (v : OVal) (r : Row)
    (hwfv : (match v with
      | OVal.ptr ref => cls == "Pointer" && ref != some none
      | OVal.scalar _ => cls != "Pointer") = true)
    (hval : r.value = (getObjectValueRaw v).1)
    (hsel : ∀ rid, v = OVal.ptr (some (some rid)) →
      ∃ ob, sel dbr rid = .ok (some ob) ∧ ob.objId = some rid) :
    ∃ val0, fillObjectWithRow sel dbr (buildObject cls) r =
      .ok (.node (some r.id) r.name r.parentId (getStrValue r.label)
        (getStrValue r.comment) cls val0 []) ∧
      valEquiv v val0 = true := by
  cases v with
  | scalar sv =>
    have hcls : (cls == "Pointer") = false := by simpa using hwfv
    have hv0 : r.value = sv := hval
    refine ⟨.scalar sv, ?_, by simp [valEquiv]⟩
    rw [buildObject, if_neg (by simp [hcls])]
    rw [fillObjectWithRow]
    rw [hv0]
  | ptr ref =>
    simp only [Bool.and_eq_true] at hwfv
    have hcls : (cls == "Pointer") = true := hwfv.1
    cases ref with
    | none =>
      have hv0 : r.value = none := hval
      refine ⟨.ptr none, ?_, rfl⟩
      rw [buildObject, if_pos hcls]
      rw [fillObjectWithRow, hv0]
    | some rr =>
      cases rr with
      | none =>
        have := hwfv.2
        simp at this
      | some refid =>
        obtain ⟨ob, hob, hoid⟩ := hsel refid rfl
        have hv0 : r.value = some (.num refid) := hval
        refine ⟨.ptr (some (some refid)), ?_, by simp [valEquiv]⟩
        rw [buildObject, if_pos hcls]
        rw [fillObjectWithRow, hv0]
        dsimp only
        rw [hob]
        dsimp only
        rw [hoid]

/-- C1: Graph Mapper tree round-trip.  For every well-formed Object tree
(`wfObj`: distinct attribute keys, dot-free keys, `Pointer` class names on
exactly the pointer nodes, every pointer referent already assigned an id)
whose root name is a single component at most (a fresh object's name),
inserted into a database whose existing rows respect the AUTOINCREMENT id
bound and whose names only reference existing ids, and all of whose pointer
referents load cleanly from the post-insert database (`hload`: the recursive
`selectById` resolves each referent id, at the given fuel, to an object
carrying that id — the inputs on which the referent resolution of
`fillObjectWithRow` raises, such as a referent row holding the
`"Pending update"` text, are thereby outside this contract): `insert`
assigns the root the fresh id, and `selectById` on that id returns a tree
equivalent to the original — the same value at every node, the same child
attribute keys at every node, and every Pointer attribute resolved to an
object with the id of the original referent (`roundTrip`). -/
theorem graph_mapper_roundtrip (db : Db) (T : Obj) (fuel : Nat)
    (hwf : wfObj T = true)
    (hname : T.name.length ≤ 1)
    (hids : ∀ r ∈ db.rows, r.id < db.nextId)
    (hheads : ∀ r ∈ db.rows,
      (match r.name.head? with
       | some (.sid m) => m < db.nextId
       | _ => True))
    (hload : ∀ rid ∈ ptrTargets T,
      (match selectById fuel (insertTop db T).1 rid with
       | .ok (some ob) => ob.objId == some rid
       | _ => false) = true) :
    (insertTop db T).2.1.objId = some db.nextId ∧
      roundTrip db T (fuel + 1) = true := by
  cases T with
  | node i n pp l cm cls v cs =>
    simp only [Obj.name] at hname
    simp only [wfObj, Bool.and_eq_true] at hwf
    obtain ⟨⟨hwfv, hwfnd⟩, hwfcs⟩ := hwf
    set row0 : Row := ⟨db.nextId, pp, n, cls, (getObjectValueRaw v).1, l, cm⟩
      with hrow0
    set db1 : Db := ⟨db.rows ++ [row0], db.nextId + 1⟩ with hdb1
    set pend1 : List PendingPtr := (if (getObjectValueRaw v).2 then
      [⟨some db.nextId, n, cls, pp, l, cm⟩] else []) with hpend1
    -- the emitted child rows
    obtain ⟨t2, ht2, hn2, hb2, hp2, hx2⟩ := insertChilds_rows cs db1
      db.nextId [.sid db.nextId] pend1
    -- the root row is the one `selectById` finds
    have hfind : Db.selectObjectById (insertChilds db1 cs db.nextId
        [.sid db.nextId] pend1).1 db.nextId = some row0 := by
      rw [Db.selectObjectById, ht2, hdb1, db_mk_rows]
      rw [List.append_assoc, List.find?_append]
      have h1 : db.rows.find? (fun r => r.id == db.nextId) = none := by
        rw [List.find?_eq_none]
        intro x hx
        have := hids x hx
        simp
        omega
      rw [h1]
      have h2 : ([row0] ++ t2).find? (fun r => r.id == db.nextId) =
          some row0 := by
        rw [List.singleton_append, List.find?_cons_of_pos]
        simp [hrow0, row_mk_id]
      rw [h2]
      rfl
    -- the referent loads, in the existential form the walk consumes
    have hload2 : ∀ rid ∈ ptrTargets (Obj.node i n pp l cm cls v cs),
        (match selectById fuel (insertChilds db1 cs db.nextId
            [.sid db.nextId] pend1).1 rid with
         | .ok (some ob) => ob.objId == some rid
         | _ => false) = true := hload
    have hsel : ∀ rid ∈ ptrTargets (Obj.node i n pp l cm cls v cs),
        ∃ ob, (fun d j => selectById fuel d j) (insertChilds db1 cs
            db.nextId [.sid db.nextId] pend1).1 rid = .ok (some ob) ∧
          ob.objId = some rid := by
      intro rid hrid
      have h := hload2 rid hrid
      revert h
      cases hx : selectById fuel (insertChilds db1 cs db.nextId
          [.sid db.nextId] pend1).1 rid with
      | error e => intro h; simp at h
      | ok oo =>
        cases oo with
        | none => intro h; simp at h
        | some ob =>
          intro h
          exact ⟨ob, hx, by simpa using h⟩
    -- the root object the row hydrates
    obtain ⟨val0, hfillEq, hvaleq⟩ := fill_build
      (fun d j => selectById fuel d j)
      (insertChilds db1 cs db.nextId [.sid db.nextId] pend1).1
      cls v row0 hwfv rfl
      (fun rid hv => hsel rid (by
        rw [hv]
        simp only [ptrTargets]
        exact List.mem_append_left _ (by simp)))
    set root0 : Obj := Obj.node (some row0.id) row0.name row0.parentId
      (getStrValue row0.label) (getStrValue row0.comment) cls val0 []
      with hroot0def
    -- its name prefix for the descendant query
    have hpfx : getNamePrefix root0.name root0.objId = [.sid db.nextId] := by
      have hnm : root0.name = n := rfl
      have hoid : root0.objId = some db.nextId := rfl
      rw [getNamePrefix, hnm, hoid]
      rw [if_neg (by omega)]
      rfl
    -- the descendant query returns exactly the emitted child rows
    have hanc : Db.selectObjectsByAncestor (insertChilds db1 cs db.nextId
        [.sid db.nextId] pend1).1 [.sid db.nextId] = t2 := by
      rw [Db.selectObjectsByAncestor, ht2, hdb1, db_mk_rows]
      have hfilter : ((db.rows ++ [row0]) ++ t2).filter
          (fun r => likeAncestor [.sid db.nextId] r.name) = t2 := by
        rw [List.filter_append, List.filter_append]
        have h1 : db.rows.filter
            (fun r => likeAncestor [.sid db.nextId] r.name) = [] := by
          rw [List.filter_eq_nil_iff]
          intro r hr hlike
          rw [likeAncestor, Bool.and_eq_true] at hlike
          obtain ⟨ts, hts⟩ := List.isPrefixOf_iff_prefix.mp hlike.1
          have hh : r.name.head? = some (.sid db.nextId) := by
            rw [← hts]
            rfl
          have := hheads r hr
          rw [hh] at this
          omega
        have h2 : [row0].filter
            (fun r => likeAncestor [.sid db.nextId] r.name) = [] := by
          have hnl : ¬ (1 < row0.name.length) := by
            rw [hrow0, row_mk_name]
            omega
          simp [likeAncestor, hnl]
        have h3 : t2.filter
            (fun r => likeAncestor [.sid db.nextId] r.name) = t2 := by
          rw [List.filter_eq_self]
          intro r hr
          obtain ⟨hpref, hlen⟩ := hx2 r hr
          rw [likeAncestor, Bool.and_eq_true]
          refine ⟨List.isPrefixOf_iff_prefix.mpr hpref, ?_⟩
          simp only [List.length_cons, List.length_nil] at hlen ⊢
          exact decide_eq_true (by omega)
        rw [h1, h2, h3]
        rfl
      rw [hfilter]
      exact sortRowsById_sorted t2 (hp2.imp le_of_lt)
    -- attaching the child rows rebuilds the children
    obtain ⟨st', kids, ents, hfold, hroot', hdict', hbnd', heqv'⟩ :=
      attach_childs cs (fun d j => selectById fuel d j)
        (insertChilds db1 cs db.nextId [.sid db.nextId] pend1).1
        db1 [] db.nextId pend1
        ⟨root0, [(db.nextId, [])]⟩ [] root0
        hwfcs (of_decide_eq_true hwfnd) (Nat.lt_succ_self _)
        (by simp [List.lookup])
        (by
          intro e he
          simp only [List.mem_singleton] at he
          subst he
          exact Nat.lt_succ_self _)
        rfl
        (fun e _ => rfl)
        (fun rid hrid => hsel rid (by
          simp only [ptrTargets]
          exact List.mem_append_right _ hrid))
    have hdrop : (insertChilds db1 cs db.nextId [.sid db.nextId]
        pend1).1.rows.drop db1.rows.length = t2 := by
      rw [ht2, List.drop_left]
    have hfold2 : List.foldlM (attachRow (fun d j => selectById fuel d j)
        (insertChilds db1 cs db.nextId [.sid db.nextId] pend1).1)
        (⟨root0, [(db.nextId, [])]⟩ : FillSt)
        ((insertChilds db1 cs db.nextId [.sid db.nextId]
          pend1).1.rows.drop db1.rows.length) = .ok st' := hfold
    rw [hdrop] at hfold2
    -- the whole read
    have hFO : fillObject (fun d j => selectById fuel d j)
        (insertChilds db1 cs db.nextId [.sid db.nextId] pend1).1
        (buildObject row0.classname) row0 = .ok st'.root := by
      rw [fillObject]
      have hfillEq2 : fillObjectWithRow (fun d j => selectById fuel d j)
          (insertChilds db1 cs db.nextId [.sid db.nextId] pend1).1
          (buildObject row0.classname) row0 = .ok root0 := hfillEq
      rw [hfillEq2]
      dsimp only
      rw [hpfx, hanc]
      have hfold3 : List.foldlM (attachRow (fun d j => selectById fuel d j)
          (insertChilds db1 cs db.nextId [.sid db.nextId] pend1).1)
          (⟨root0, [(row0.id, [])]⟩ : FillSt) t2 = .ok st' := hfold2
      rw [hfold3]
    have hsById : selectById (fuel + 1) (insertChilds db1 cs db.nextId
        [.sid db.nextId] pend1).1 db.nextId = .ok (some st'.root) := by
      rw [selectById, hfind]
      dsimp only
      rw [hFO]
    refine ⟨rfl, ?_⟩
    have hrt : roundTrip db (.node i n pp l cm cls v cs) (fuel + 1) =
        (match selectById (fuel + 1) (insertChilds db1 cs db.nextId
          [.sid db.nextId] pend1).1 db.nextId with
         | .ok (some res) => equivObj (.node i n pp l cm cls v cs) res
         | _ => false) := rfl
    rw [hrt, hsById]
    dsimp only
    have hrootn : st'.root = Obj.node (some row0.id) row0.name
        row0.parentId (getStrValue row0.label) (getStrValue row0.comment)
        cls val0 kids := hroot'
    rw [hrootn]
    simp only [equivObj, Bool.and_eq_true]
    exact ⟨hvaleq, heqv'⟩

/-- Concrete round-trip: over a database already holding row 7 (a stored
referent of scalar class `"B"`), insert a three-level tree — a scalar root
with a `Pointer` child aimed at object 7 and a scalar child with one
grandchild — and read it back by the fresh root id with recursion fuel 2
(one nested referent load); the result is structurally equivalent to the
input. -/
theorem graph_mapper_roundtrip_witness :
    (insertTop ⟨[⟨7, none, [], "B", some (.txt "ref"), none, none⟩], 8⟩
      (.node none [] none none none "A" (.scalar (some (.txt "x")))
        [("p", .node none [] none none none "Pointer" (.ptr (some (some 7))) []),
         ("c", .node none [] none none none "C" (.scalar none)
           [("g", .node none [] none none none "G"
               (.scalar (some (.num 5))) [])])])).2.1.objId = some 8 ∧
    roundTrip ⟨[⟨7, none, [], "B", some (.txt "ref"), none, none⟩], 8⟩
      (.node none [] none none none "A" (.scalar (some (.txt "x")))
        [("p", .node none [] none none none "Pointer" (.ptr (some (some 7))) []),
         ("c", .node none [] none none none "C" (.scalar none)
           [("g", .node none [] none none none "G"
               (.scalar (some (.num 5))) [])])]) 2 = true :=
  graph_mapper_roundtrip _ _ 1
    (by simp only [wfObj, wfChildren]; decide)
    (by decide)
    (fun r hr => by rcases List.mem_singleton.mp hr with rfl; decide)
    (fun r hr => by rcases List.mem_singleton.mp hr with rfl; trivial)
    (by simp only [ptrTargets, ptrTargetsChildren]; decide)

end PW
